import Mathlib

/-!
Verification of the nearcore Client / Chain-GC specification against a shallow
embedding of the repository's sources.

The embedding follows the structure of the repository:

* `Gc` — the chain garbage collector (`Chain::clear_data`).  The implementation
  of `clear_data` itself is not among the provided sources (only its test
  harness `chain/chain/src/tests/gc.rs` is), so the state machine below is
  modelled from the specification's §4.1 and pinned down by the behaviour the
  in-source tests `test_gc_remove_simple_chain_sanity` and
  `test_fork_far_away_from_epoch_end` demand.
* `ClientM` — the `Client` methods of `chain/client/src/client.rs`
  (`produce_block`, `process_block`, `collect_block_approval`,
  `on_block_accepted_with_optional_chunk_produce`, `prepare_transactions`,
  `produce_chunk`), embedded with the external collaborators (RuntimeAdapter,
  Store, Doomslug internals, ShardsManager pool) abstracted as environment
  functions.
* `Migrations` — `apply_store_migrations` of `nearcore/src/lib.rs`.
-/

namespace Gc

/-- Entries of the key-value state held by one shard's trie.  The trie is
modelled at entry granularity: a state root is identified with the set of
`(key, value)` pairs reachable from it, and the refcounted node store counts,
for every entry, how many retained `TrieChanges` insertion records mention it.
This follows the spec's §3 "TrieChanges are refcount deltas; the same node may
be referenced by many roots". -/
abbrev Entry := Nat × Nat

/-- One key-value change as generated by `gen_changes` in the test harness:
a key together with `some value` (write) or `none` (delete). -/
abbrev Change := Nat × Option Nat

/-- Application of a single change to a state, mirroring `trie.update` at the
key-value level: the key's previous entry is dropped and, for a write, the new
entry is appended. -/
def applyChange (st : List Entry) (c : Change) : List Entry :=
  match c.2 with
  | none => st.filter (fun e => decide (e.1 ≠ c.1))
  | some v => st.filter (fun e => decide (e.1 ≠ c.1)) ++ [(c.1, v)]

/-- Application of a block's list of changes. -/
def applyChs (st : List Entry) (cs : List Change) : List Entry :=
  cs.foldl applyChange st

/-- State (set of entries) after the block at height `h`, for the per-height
change assignment `chs` (block at height `h ≥ 1` carries changes `chs h`;
the genesis state is empty, as in `gc_fork_common`). -/
def stateAt (chs : Nat → List Change) : Nat → List Entry
  | 0 => []
  | h + 1 => applyChs (stateAt chs h) (chs (h + 1))

/-- Insertion records of the `TrieChanges` of the block at height `h`: entries
of the new root that were not present in the previous root.  These are the
refcount increments applied by `tries.apply_insertions`. -/
def insAt (chs : Nat → List Change) : Nat → List Entry
  | 0 => []
  | h + 1 => (stateAt chs (h + 1)).filter (fun e => decide (¬ e ∈ stateAt chs h))

/-- Deletion records of the `TrieChanges` of the block at height `h`: entries
of the previous root that are gone from the new one.  These are the refcount
decrements applied when the block is garbage-collected canonically. -/
def delAt (chs : Nat → List Change) : Nat → List Entry
  | 0 => []
  | h + 1 => (stateAt chs h).filter (fun e => decide (¬ e ∈ stateAt chs (h + 1)))

/-- Occurrence count of an entry in a list (the refcount delta contributed by
one `TrieChanges` record). -/
def cnt (e : Entry) : List Entry → Nat
  | [] => 0
  | x :: xs => (if x = e then 1 else 0) + cnt e xs

/-- Refcounted node store: for every entry, how many retained insertion
records mention it. -/
abbrev TrieStore := Entry → Nat

/-- Refcount increments of one insertion record (`apply_insertions`). -/
def addCnt (l : List Entry) (t : TrieStore) : TrieStore :=
  fun e => t e + cnt e l

/-- Refcount decrements of one record; entries whose refcount reaches zero are
freed (`Nat` subtraction saturates exactly like freeing at zero). -/
def subCnt (l : List Entry) (t : TrieStore) : TrieStore :=
  fun e => t e - cnt e l

/-- Trie iteration from a root: succeeds iff every entry of the root is still
alive in the store, in which case it yields the root's key list, mirroring
`trie.iter(&state_root)` followed by collecting the keys in `gc_fork_common`. -/
def iterTrie (t : TrieStore) (root : List Entry) : Option (List Nat) :=
  if root.all (fun e => decide (1 ≤ t e)) then some (root.map Prod.fst) else none

/-- Static description of a chain DAG as the GC sees it.  Blocks are named by
`Nat` hashes; `blocksAtHeight` is the `BlockHeight → HeaderHashes` index over
all blocks ever saved, `canonicalAt` the height-indexed canonical-successor
index, `prevOf` the parent pointer and `heightOf` the header height. -/
structure Scenario where
  epochLen : Nat
  blocksAtHeight : Nat → List Nat
  prevOf : Nat → Option Nat
  heightOf : Nat → Nat
  canonicalAt : Nat → Option Nat

/-- Mutable store state relevant to GC: which block hashes are still stored,
and the `TAIL` / `FORK_TAIL` keys. -/
structure GcState where
  present : Nat → Bool
  tail : Nat
  forkTail : Nat

/-- Removal of one block's data from the store. -/
def eraseBlk (s : GcState) (b : Nat) : GcState :=
  { s with present := fun x => if x = b then false else s.present x }

/-- Block refcount, derived: the number of stored blocks whose `prev_hash`
points at `p` (spec §3 invariant 6). -/
def refcount (sc : Scenario) (s : GcState) (p : Nat) : Nat :=
  ((sc.blocksAtHeight (sc.heightOf p + 1)).filter
    (fun b => s.present b && (sc.prevOf b == some p))).length

/-- Whether a stored block is the canonical one at its height. -/
def isCanonical (sc : Scenario) (b : Nat) : Bool :=
  sc.canonicalAt (sc.heightOf b) == some b

/-- Modelled from the spec: the fork-block deletion walk of `clear_forks_data`
(part of `Chain::clear_data`, whose implementation is not among the provided
sources).  Starting from a candidate hash it erases the block while it is
stored, not canonical at its height, and has block refcount zero (a fork
leaf), then continues with its parent, which may have become a leaf
(spec §4.1, block deletion step 2).  Each erased block consumes one unit of
the `gc_blocks_limit` budget and is logged as a fork deletion. -/
def forkWalk (sc : Scenario) :
    Nat → Nat → GcState → Nat → (GcState × Nat × List (Bool × Nat))
  | 0, _, s, budget => (s, budget, [])
  | fuel + 1, cur, s, budget =>
    if s.present cur && !isCanonical sc cur && (refcount sc s cur == 0) then
      let s' := eraseBlk s cur
      match sc.prevOf cur with
      | some p =>
        let r := forkWalk sc fuel p s' (budget - 1)
        (r.1, r.2.1, (false, cur) :: r.2.2)
      | none => (s', budget - 1, [(false, cur)])
    else (s, budget, [])

/-- Modelled from the spec: processing of the candidate blocks of one height
during the fork sweep — every non-canonical stored block starts a `forkWalk`. -/
def sweepBlocks (sc : Scenario) :
    List Nat → (GcState × Nat × List (Bool × Nat)) →
    GcState × Nat × List (Bool × Nat)
  | [], acc => acc
  | b :: bs, acc =>
    sweepBlocks sc bs
      (if acc.1.present b && !isCanonical sc b then
        let r := forkWalk sc (sc.heightOf b + 1) b acc.1 acc.2.1
        (r.1, r.2.1, acc.2.2 ++ r.2.2)
      else acc)

/-- Modelled from the spec: one height of the downward fork sweep. -/
def sweepHeight (sc : Scenario) (h : Nat) (s : GcState) (budget : Nat) :
    GcState × Nat × List (Bool × Nat) :=
  sweepBlocks sc (sc.blocksAtHeight h) (s, budget, [])

/-- Modelled from the spec: the fork-tail sweep of `Chain::clear_data`.  The
heights from `fork_tail - 1` down to `max tail (fork_tail - GC_FORK_CLEAN_STEP)`
are processed in descending order; after each height the `FORK_TAIL` key is
lowered to it, and the sweep stops early (without lowering further) once the
`gc_blocks_limit` budget is exhausted.  The final `Bool` reports the early
stop, in which case `clear_data` returns without canonical clearing. -/
def sweepForks (sc : Scenario) :
    List Nat → GcState → Nat → List (Bool × Nat) →
    (GcState × Nat × List (Bool × Nat) × Bool)
  | [], s, budget, log => (s, budget, log, false)
  | h :: rest, s, budget, log =>
    let r := sweepHeight sc h s budget
    if r.2.1 == 0 then (r.1, 0, log ++ r.2.2, true)
    else sweepForks sc rest { r.1 with forkTail := h } r.2.1 (log ++ r.2.2)

/-- Modelled from the spec: the canonical-tail clearing loop of
`Chain::clear_data`.  Heights run from the tail up to the GC stop height; at a
height whose canonical block is still stored, the block is erased (consuming
budget, applying its `TrieChanges` deletions — logged as a canonical deletion
— and advancing `TAIL`), unless its parent has block refcount above one, in
which case the parent still has a fork child, the tail is parked just below
and the loop stops (the "Block of prev_hash starts a Fork, stopping" case
forced by `test_fork_far_away_from_epoch_end`). -/
def canonClear (sc : Scenario) :
    List Nat → GcState → Nat → List (Bool × Nat) →
    (GcState × Nat × List (Bool × Nat))
  | [], s, budget, log => (s, budget, log)
  | h :: rest, s, budget, log =>
    if budget == 0 then (s, budget, log)
    else
      match sc.canonicalAt h with
      | none => canonClear sc rest s budget log
      | some b =>
        if s.present b then
          match sc.prevOf b with
          | some p =>
            if 1 < refcount sc s p then ({ s with tail := h - 1 }, budget, log)
            else
              canonClear sc rest { eraseBlk s b with tail := h } (budget - 1)
                (log ++ [(true, b)])
          | none =>
            canonClear sc rest { eraseBlk s b with tail := h } (budget - 1)
              (log ++ [(true, b)])
        else canonClear sc rest s budget log

/-- Fixed GC parameter `GC_FORK_CLEAN_STEP` (spec §4.1). -/
def gcForkCleanStep : Nat := 1000

/-- Fixed GC parameter: number of epochs kept behind the head
(`gc_num_epochs_to_keep`, spec §4.1). -/
def gcNumEpochsToKeep : Nat := 5

/-- Whether the block at `h` is the first block of its epoch (the head
condition under which `clear_data` re-initialises the fork tail). -/
def epochChangeAt (sc : Scenario) (h : Nat) : Bool :=
  decide (1 ≤ h) && ((h - 1) % sc.epochLen == 0)

/-- Modelled from the spec: `Chain::clear_data` (spec §4.1; the Rust
implementation is not among the provided sources, only its tests).  Computes
the GC stop height from the head, re-initialises `FORK_TAIL` on an epoch
change, runs the bounded downward fork sweep, and then the canonical-tail
clearing, all under a shared `gc_blocks_limit` budget.  Returns the new store
state together with the ordered log of block deletions
(`(true, b)` = canonical deletion applying `delAt`-style trie deletions,
`(false, b)` = fork deletion reverting the block's trie insertions). -/
def clearData (sc : Scenario) (headHeight : Nat) (lim : Nat) (s : GcState) :
    GcState × List (Bool × Nat) :=
  let gcStop := headHeight - gcNumEpochsToKeep * sc.epochLen
  let s1 :=
    if epochChangeAt sc headHeight && decide (s.forkTail < gcStop) then
      { s with forkTail := gcStop }
    else s
  let stopH := max s1.tail (s1.forkTail - gcForkCleanStep)
  let sweepHeights := (List.range' stopH (s1.forkTail - stopH)).reverse
  let r := sweepForks sc sweepHeights s1 lim []
  if r.2.2.2 then (r.1, r.2.2.1)
  else
    let canonHeights := List.range' r.1.tail (gcStop - r.1.tail)
    let r2 := canonClear sc canonHeights r.1 r.2.1 r.2.2.1
    (r2.1, r2.2.2)

/-- Application of the deletion log to the refcounted trie store: a canonical
deletion applies the block's `TrieChanges` deletions, a fork deletion reverts
the block's insertions (spec §4.1, step 3, and the `GCMode` distinction the
equivalence test relies on). -/
def applyGcLog (insOf delOf : Nat → List Entry) (log : List (Bool × Nat))
    (t : TrieStore) : TrieStore :=
  log.foldl (fun t e => subCnt (if e.1 then delOf e.2 else insOf e.2) t) t

/-- Linear-chain scenario of `test_gc_remove_simple_chain_sanity`: one shard,
the canonical chain occupies heights 0..100 (hash = height), epoch length 10
as in `ChainGenesis::test`-based chains with `get_chain`. -/
def c1Scenario : Scenario where
  epochLen := 10
  blocksAtHeight := fun h => if h ≤ 100 then [h] else []
  prevOf := fun b => if b = 0 then none else if b ≤ 100 then some (b - 1) else none
  heightOf := fun b => b
  canonicalAt := fun h => if h ≤ 100 then some h else none

/-- Initial store for the linear-chain scenario: all 101 blocks stored, both
tails at genesis. -/
def c1Init : GcState where
  present := fun x => decide (x ≤ 100)
  tail := 0
  forkTail := 0

/-- Scenario of `test_fork_far_away_from_epoch_end`: epoch length 1100,
canonical blocks at heights 0..6602 (hash = height; 6602 is the block produced
between the two GC calls), plus a two-block fork branching off height 5 with
hashes 10006 (height 6) and 10007 (height 7). -/
def c2Scenario : Scenario where
  epochLen := 1100
  blocksAtHeight := fun h =>
    if h = 6 then [6, 10006]
    else if h = 7 then [7, 10007]
    else if h ≤ 6602 then [h] else []
  prevOf := fun b =>
    if b = 10006 then some 5
    else if b = 10007 then some 10006
    else if b = 0 then none
    else if b ≤ 6602 then some (b - 1) else none
  heightOf := fun b => if b = 10006 then 6 else if b = 10007 then 7 else b
  canonicalAt := fun h => if h ≤ 6602 then some h else none

/-- Store of the C2 scenario before the first `clear_data` call: canonical
blocks 0..6601 and the two fork blocks. -/
def c2Init : GcState where
  present := fun x => decide (x ≤ 6601) || (x == 10006) || (x == 10007)
  tail := 0
  forkTail := 0

/-- State after the first `clear_data(gc_blocks_limit = 100)` call at head
height 6601 (the epoch start). -/
def c2AfterFirst : GcState := (clearData c2Scenario 6601 100 c2Init).1

/-- Store after additionally producing the canonical block at height 6602. -/
def c2WithExtraBlock : GcState :=
  { c2AfterFirst with
    present := fun x => if x = 6602 then true else c2AfterFirst.present x }

/-- State after the second `clear_data(gc_blocks_limit = 100)` call at head
height 6602. -/
def c2AfterSecond : GcState := (clearData c2Scenario 6602 100 c2WithExtraBlock).1

/-- Total number of insertion-record occurrences of `e` over heights `1..n`. -/
def sumInsTo (chs : Nat → List Change) (e : Entry) : Nat → Nat
  | 0 => 0
  | n + 1 => sumInsTo chs e n + cnt e (insAt chs (n + 1))

/-- Total number of deletion-record occurrences of `e` over heights `1..n`. -/
def sumDelTo (chs : Nat → List Change) (e : Entry) : Nat → Nat
  | 0 => 0
  | n + 1 => sumDelTo chs e n + cnt e (delAt chs (n + 1))

/-- Refcounted store built by normal chain processing (chain 1 of
`gc_fork_common`): the insertions of every block up to height `n` are applied,
deletions are deferred until GC. -/
def buildTrie (chs : Nat → List Change) : Nat → TrieStore
  | 0 => fun _ => 0
  | n + 1 => addCnt (insAt chs (n + 1)) (buildTrie chs n)

/-- Refcounted store built by chain 2 of `gc_fork_common` for the linear
scenario: blocks at heights below the GC height 50 are applied with
`apply_all` (insertions and deletions), blocks at height 50 and above with
`apply_insertions` only. -/
def c1FreshTrie (chs : Nat → List Change) : Nat → TrieStore
  | 0 => fun _ => 0
  | n + 1 =>
    if n + 1 ≤ 49 then
      subCnt (delAt chs (n + 1)) (addCnt (insAt chs (n + 1)) (c1FreshTrie chs n))
    else addCnt (insAt chs (n + 1)) (c1FreshTrie chs n)

/-- Refcounted store of chain 1 after `clear_data`: the deletion log produced
by the GC run is applied to the fully built store. -/
def c1GcTrie (chs : Nat → List Change) : TrieStore :=
  applyGcLog (insAt chs) (delAt chs) (clearData c1Scenario 100 1000 c1Init).2
    (buildTrie chs 100)

theorem cnt_eq_zero_of_not_mem {e : Entry} : ∀ {l : List Entry}, e ∉ l → cnt e l = 0
  | [], _ => rfl
  | x :: xs, h => by
    have hx : x ≠ e := fun hxe => h (hxe ▸ List.mem_cons_self x xs)
    have hxs : e ∉ xs := fun hm => h (List.mem_cons_of_mem x hm)
    simp [cnt, hx, cnt_eq_zero_of_not_mem hxs]

theorem cnt_of_nodup {e : Entry} :
    ∀ {l : List Entry}, l.Nodup → cnt e l = if e ∈ l then 1 else 0
  | [], _ => by simp [cnt]
  | x :: xs, h => by
    rcases List.nodup_cons.mp h with ⟨hx, hxs⟩
    by_cases hxe : x = e
    · subst hxe
      simp [cnt, cnt_eq_zero_of_not_mem hx]
    · have hmem : (e ∈ x :: xs) ↔ e ∈ xs := by
        constructor
        · intro hm
          rcases List.mem_cons.mp hm with h' | h'
          · exact absurd h'.symm hxe
          · exact h'
        · exact List.mem_cons_of_mem x
      simp [cnt, hxe, cnt_of_nodup hxs, hmem]

theorem keysNodup_applyChange {st : List Entry} (c : Change)
    (h : (st.map Prod.fst).Nodup) : ((applyChange st c).map Prod.fst).Nodup := by
  have hfil : ((st.filter (fun e => decide (e.1 ≠ c.1))).map Prod.fst).Nodup :=
    ((List.filter_sublist st).map Prod.fst).nodup h
  match c with
  | (k, none) => exact hfil
  | (k, some v) =>
    rw [applyChange]
    rw [List.map_append]
    refine List.Nodup.append hfil (List.nodup_singleton k) ?_
    intro x hx hx'
    simp only [List.map_singleton, List.mem_singleton] at hx'
    subst hx'
    rcases List.mem_map.mp hx with ⟨e, he, hek⟩
    have := (List.mem_filter.mp he).2
    rw [decide_eq_true_iff] at this
    exact this hek

theorem keysNodup_applyChs {st : List Entry} (cs : List Change)
    (h : (st.map Prod.fst).Nodup) : ((applyChs st cs).map Prod.fst).Nodup := by
  induction cs generalizing st with
  | nil => exact h
  | cons c cs ih => exact ih (keysNodup_applyChange c h)

theorem keysNodup_stateAt (chs : Nat → List Change) :
    ∀ h, ((stateAt chs h).map Prod.fst).Nodup
  | 0 => List.nodup_nil
  | h + 1 => keysNodup_applyChs (chs (h + 1)) (keysNodup_stateAt chs h)

theorem nodup_stateAt (chs : Nat → List Change) (h : Nat) :
    (stateAt chs h).Nodup :=
  (keysNodup_stateAt chs h).of_map Prod.fst

theorem mem_insAt {chs : Nat → List Change} {e : Entry} {h : Nat} :
    e ∈ insAt chs (h + 1) ↔ e ∈ stateAt chs (h + 1) ∧ e ∉ stateAt chs h := by
  simp [insAt, List.mem_filter]

theorem mem_delAt {chs : Nat → List Change} {e : Entry} {h : Nat} :
    e ∈ delAt chs (h + 1) ↔ e ∈ stateAt chs h ∧ e ∉ stateAt chs (h + 1) := by
  simp [delAt, List.mem_filter]

theorem cnt_insAt (chs : Nat → List Change) (e : Entry) (h : Nat) :
    cnt e (insAt chs (h + 1)) =
      if e ∈ stateAt chs (h + 1) ∧ e ∉ stateAt chs h then 1 else 0 := by
  rw [insAt, cnt_of_nodup ((nodup_stateAt chs (h + 1)).filter _)]
  refine if_congr ?_ rfl rfl
  simp [List.mem_filter]

theorem cnt_delAt (chs : Nat → List Change) (e : Entry) (h : Nat) :
    cnt e (delAt chs (h + 1)) =
      if e ∈ stateAt chs h ∧ e ∉ stateAt chs (h + 1) then 1 else 0 := by
  rw [delAt, cnt_of_nodup ((nodup_stateAt chs h).filter _)]
  refine if_congr ?_ rfl rfl
  simp [List.mem_filter]

/-- Balance invariant: over any prefix of the chain, the number of insertion
records of an entry exceeds the number of its deletion records by exactly one
when the entry is live in the last state, and matches it otherwise. -/
theorem insDelBalance (chs : Nat → List Change) (e : Entry) :
    ∀ n, sumInsTo chs e n =
      sumDelTo chs e n + (if e ∈ stateAt chs n then 1 else 0) := by
  intro n
  induction n with
  | zero => simp [sumInsTo, sumDelTo, stateAt]
  | succ n ih =>
    rw [sumInsTo, sumDelTo, cnt_insAt, cnt_delAt, ih]
    by_cases h1 : e ∈ stateAt chs (n + 1) <;> by_cases h0 : e ∈ stateAt chs n <;>
      simp [h1, h0] <;> omega

theorem sumDelTo_mono (chs : Nat → List Change) (e : Entry) {m n : Nat}
    (h : m ≤ n) : sumDelTo chs e m ≤ sumDelTo chs e n := by
  induction n with
  | zero => simpa [Nat.le_zero.mp h]
  | succ n ih =>
    rcases Nat.lt_or_ge m (n + 1) with h' | h'
    · exact Nat.le_trans (ih (Nat.lt_succ_iff.mp h')) (Nat.le_add_right _ _)
    · have : m = n + 1 := Nat.le_antisymm h h'
      subst this
      exact Nat.le_refl _

theorem sumInsTo_mono (chs : Nat → List Change) (e : Entry) {m n : Nat}
    (h : m ≤ n) : sumInsTo chs e m ≤ sumInsTo chs e n := by
  induction n with
  | zero => simpa [Nat.le_zero.mp h]
  | succ n ih =>
    rcases Nat.lt_or_ge m (n + 1) with h' | h'
    · exact Nat.le_trans (ih (Nat.lt_succ_iff.mp h')) (Nat.le_add_right _ _)
    · have : m = n + 1 := Nat.le_antisymm h h'
      subst this
      exact Nat.le_refl _

theorem buildTrie_apply (chs : Nat → List Change) (e : Entry) :
    ∀ n, buildTrie chs n e = sumInsTo chs e n
  | 0 => rfl
  | n + 1 => by
    rw [buildTrie, addCnt, buildTrie_apply chs e n, sumInsTo]

theorem applyGcLog_apply (insOf delOf : Nat → List Entry) (e : Entry) :
    ∀ (log : List (Bool × Nat)) (t : TrieStore),
      applyGcLog insOf delOf log t e =
        t e - (log.map (fun p => cnt e (if p.1 then delOf p.2 else insOf p.2))).sum
  | [], t => rfl
  | p :: log, t => by
    have ih := applyGcLog_apply insOf delOf e log
      (subCnt (if p.1 then delOf p.2 else insOf p.2) t)
    simp only [applyGcLog, List.foldl_cons, List.map_cons, List.sum_cons] at *
    rw [ih]
    simp only [subCnt]
    omega

theorem rangeDelSum (chs : Nat → List Change) (e : Entry) :
    ∀ n, ((List.range (n + 1)).map (fun h => cnt e (delAt chs h))).sum =
      sumDelTo chs e n
  | 0 => by
    have h1 : List.range 1 = [0] := rfl
    rw [h1]
    simp [delAt, cnt, sumDelTo]
  | n + 1 => by
    rw [List.range_succ, List.map_append, List.sum_append,
      rangeDelSum chs e n, sumDelTo]
    simp

theorem sumDelTo_le_sumInsTo (chs : Nat → List Change) (e : Entry) (n : Nat) :
    sumDelTo chs e n ≤ sumInsTo chs e n := by
  rw [insDelBalance]
  exact Nat.le_add_right _ _

theorem c1FreshTrie_apply_low (chs : Nat → List Change) (e : Entry) :
    ∀ n, n ≤ 49 → c1FreshTrie chs n e = if e ∈ stateAt chs n then 1 else 0 := by
  intro n
  induction n with
  | zero => intro _; simp [c1FreshTrie, stateAt]
  | succ n ih =>
    intro hn
    have hn' : n ≤ 49 := Nat.le_of_succ_le hn
    rw [c1FreshTrie, if_pos hn]
    simp only [subCnt, addCnt]
    rw [ih hn', cnt_insAt, cnt_delAt]
    by_cases h1 : e ∈ stateAt chs (n + 1) <;> by_cases h0 : e ∈ stateAt chs n <;>
      simp [h1, h0]

theorem c1FreshTrie_apply_high (chs : Nat → List Change) (e : Entry) :
    ∀ n, 49 ≤ n → c1FreshTrie chs n e = sumInsTo chs e n - sumDelTo chs e 49 := by
  intro n
  induction n with
  | zero => intro h; exact absurd h (by decide)
  | succ n ih =>
    intro hn
    rcases Nat.lt_or_ge n 49 with hlt | hge
    · have h49 : n + 1 = 49 := by omega
      rw [h49]
      have hlow := c1FreshTrie_apply_low chs e 49 (Nat.le_refl _)
      have hb := insDelBalance chs e 49
      rw [hlow]
      by_cases hm : e ∈ stateAt chs 49 <;> simp [hm] at hb ⊢ <;> omega
    · have hval := ih hge
      rw [c1FreshTrie, if_neg (by omega)]
      simp only [addCnt]
      rw [hval, sumInsTo]
      have h1 : sumDelTo chs e 49 ≤ sumInsTo chs e n :=
        Nat.le_trans (sumDelTo_mono chs e hge) (sumDelTo_le_sumInsTo chs e n)
      omega

set_option maxRecDepth 10000 in
/-- Deletion log of the linear-scenario GC run: the canonical blocks at
heights 0..49, in order. -/
theorem c1Log_eq :
    (clearData c1Scenario 100 1000 c1Init).2 =
      (List.range 50).map (fun h => (true, h)) := by
  decide

theorem c1GcTrie_apply (chs : Nat → List Change) (e : Entry) :
    c1GcTrie chs e = sumInsTo chs e 100 - sumDelTo chs e 49 := by
  rw [c1GcTrie, applyGcLog_apply, buildTrie_apply, c1Log_eq, List.map_map]
  have hcomp :
      ((fun p : Bool × Nat => cnt e (if p.1 then delAt chs p.2 else insAt chs p.2)) ∘
        fun h => ((true : Bool), h)) = fun h => cnt e (delAt chs h) := by
    funext h
    simp
  rw [hcomp]
  rw [rangeDelSum chs e 49]

theorem c1GcTrie_eq_fresh (chs : Nat → List Change) (e : Entry) :
    c1GcTrie chs e = c1FreshTrie chs 100 e := by
  rw [c1GcTrie_apply, c1FreshTrie_apply_high chs e 100 (by omega)]

/-- Liveness after GC: an entry of any surviving root (height 50..100) still
has a positive refcount, i.e. the deletions applied while erasing heights
0..49 never free a node a retained root needs. -/
theorem c1GcTrie_live (chs : Nat → List Change) (e : Entry) {h : Nat}
    (h50 : 50 ≤ h) (h100 : h ≤ 100) (hm : e ∈ stateAt chs h) :
    1 ≤ c1GcTrie chs e := by
  rw [c1GcTrie_apply]
  have hbal := insDelBalance chs e h
  rw [if_pos hm] at hbal
  have h1 : sumInsTo chs e h ≤ sumInsTo chs e 100 := sumInsTo_mono chs e h100
  have h2 : sumDelTo chs e 49 ≤ sumDelTo chs e h :=
    sumDelTo_mono chs e (by omega)
  omega

theorem forkWalk_present_mono (sc : Scenario) :
    ∀ fuel cur s budget x,
      (forkWalk sc fuel cur s budget).1.present x = true → s.present x = true := by
  intro fuel
  induction fuel with
  | zero => intro cur s budget x hx; exact hx
  | succ fuel ih =>
    intro cur s budget x hx
    rw [forkWalk] at hx
    by_cases hc : s.present cur && !isCanonical sc cur && (refcount sc s cur == 0)
    · rw [if_pos hc] at hx
      cases hp : sc.prevOf cur with
      | some p =>
        rw [hp] at hx
        have := ih p (eraseBlk s cur) (budget - 1) x hx
        simp only [eraseBlk] at this
        by_cases hxc : x = cur
        · rw [if_pos hxc] at this; exact absurd this (by simp)
        · rwa [if_neg hxc] at this
      | none =>
        rw [hp] at hx
        simp only [eraseBlk] at hx
        by_cases hxc : x = cur
        · rw [if_pos hxc] at hx; exact absurd hx (by simp)
        · rwa [if_neg hxc] at hx
    · rwa [if_neg hc] at hx

theorem sweepBlocks_present_mono (sc : Scenario) :
    ∀ (bs : List Nat) (acc : GcState × Nat × List (Bool × Nat)) x,
      (sweepBlocks sc bs acc).1.present x = true → acc.1.present x = true := by
  intro bs
  induction bs with
  | nil => intro acc x hx; exact hx
  | cons b bs ih =>
    intro acc x hx
    rw [sweepBlocks] at hx
    have hstep := ih _ x hx
    by_cases hc : acc.1.present b && !isCanonical sc b
    · rw [if_pos hc] at hstep
      exact forkWalk_present_mono sc _ b acc.1 acc.2.1 x hstep
    · rwa [if_neg hc] at hstep

theorem sweepForks_present_mono (sc : Scenario) :
    ∀ (hs : List Nat) s budget log x,
      (sweepForks sc hs s budget log).1.present x = true → s.present x = true := by
  intro hs
  induction hs with
  | nil => intro s budget log x hx; exact hx
  | cons h rest ih =>
    intro s budget log x hx
    rw [sweepForks] at hx
    by_cases hz : (sweepHeight sc h s budget).2.1 == 0
    · rw [if_pos hz] at hx
      exact sweepBlocks_present_mono sc _ _ x hx
    · rw [if_neg hz] at hx
      have := ih _ _ _ x hx
      exact sweepBlocks_present_mono sc _ _ x this

theorem canonClear_present_mono (sc : Scenario) :
    ∀ (hs : List Nat) s budget log x,
      (canonClear sc hs s budget log).1.present x = true → s.present x = true := by
  intro hs
  induction hs with
  | nil => intro s budget log x hx; exact hx
  | cons h rest ih =>
    intro s budget log x hx
    rw [canonClear] at hx
    by_cases hb : budget == 0
    · rwa [if_pos hb] at hx
    · rw [if_neg hb] at hx
      cases hcan : sc.canonicalAt h with
      | none => rw [hcan] at hx; exact ih _ _ _ x hx
      | some b =>
        rw [hcan] at hx
        simp only at hx
        by_cases hpres : s.present b
        · rw [if_pos hpres] at hx
          cases hp : sc.prevOf b with
          | some p =>
            rw [hp] at hx
            simp only at hx
            by_cases hrc : 1 < refcount sc s p
            · rwa [if_pos hrc] at hx
            · rw [if_neg hrc] at hx
              have := ih _ _ _ x hx
              simp only [eraseBlk] at this
              by_cases hxb : x = b
              · rw [if_pos hxb] at this; exact absurd this (by simp)
              · rwa [if_neg hxb] at this
          | none =>
            rw [hp] at hx
            have := ih _ _ _ x hx
            simp only [eraseBlk] at this
            by_cases hxb : x = b
            · rw [if_pos hxb] at this; exact absurd this (by simp)
            · rwa [if_neg hxb] at this
        · rw [if_neg hpres] at hx; exact ih _ _ _ x hx

theorem clearData_present_mono (sc : Scenario) (headHeight lim : Nat)
    (s : GcState) (x : Nat)
    (hx : (clearData sc headHeight lim s).1.present x = true) :
    s.present x = true := by
  rw [clearData] at hx
  set s1 := if epochChangeAt sc headHeight && decide (s.forkTail < headHeight - gcNumEpochsToKeep * sc.epochLen) then { s with forkTail := headHeight - gcNumEpochsToKeep * sc.epochLen } else s with hs1
  have hps1 : s1.present = s.present := by
    rw [hs1]
    by_cases hcond : epochChangeAt sc headHeight && decide (s.forkTail < headHeight - gcNumEpochsToKeep * sc.epochLen)
    · rw [if_pos hcond]
    · rw [if_neg hcond]
  simp only at hx
  by_cases hex : (sweepForks sc ((List.range' (max s1.tail (s1.forkTail - gcForkCleanStep)) (s1.forkTail - max s1.tail (s1.forkTail - gcForkCleanStep))).reverse) s1 lim []).2.2.2
  · rw [if_pos hex] at hx
    have := sweepForks_present_mono sc _ _ _ _ x hx
    rwa [hps1] at this
  · rw [if_neg hex] at hx
    have h1 := canonClear_present_mono sc _ _ _ _ x hx
    have h2 := sweepForks_present_mono sc _ _ _ _ x h1
    rwa [hps1] at h2

set_option maxRecDepth 10000 in
theorem c1_present_bounded :
    ∀ b, b ≤ 100 →
      (clearData c1Scenario 100 1000 c1Init).1.present b = decide (50 ≤ b) := by
  decide

/-- C1.  For the canonical chain of 101 blocks (heights 0..100) built from
genesis on one shard with arbitrary per-block trie changes,
`clear_data(gc_blocks_limit = 1000)` leaves exactly the blocks at heights
≥ 50 in the store (height 50 exists, heights 0..49 are absent), and for every
surviving block's state root, iterating the trie in the GC'd store yields the
same key set as iterating the same root in a fresh store built only from the
surviving changes (chain 2 of `gc_fork_common`), both iterations succeeding. -/
theorem claim_c1 (chs : Nat → List Change) :
    (∀ b, (clearData c1Scenario 100 1000 c1Init).1.present b = true ↔
      (50 ≤ b ∧ b ≤ 100)) ∧
    (∀ h, 50 ≤ h → h ≤ 100 →
      iterTrie (c1GcTrie chs) (stateAt chs h) =
        some ((stateAt chs h).map Prod.fst) ∧
      iterTrie (c1FreshTrie chs 100) (stateAt chs h) =
        some ((stateAt chs h).map Prod.fst)) := by
  constructor
  · intro b
    constructor
    · intro hp
      have hb100 : b ≤ 100 := by
        by_contra hgt
        have hinit := clearData_present_mono c1Scenario 100 1000 c1Init b hp
        simp only [c1Init, decide_eq_true_eq] at hinit
        exact hgt hinit
      have := c1_present_bounded b hb100
      rw [this] at hp
      exact ⟨of_decide_eq_true hp, hb100⟩
    · rintro ⟨h50, h100⟩
      rw [c1_present_bounded b h100]
      exact decide_eq_true h50
  · intro h h50 h100
    have hall : (stateAt chs h).all (fun e => decide (1 ≤ c1GcTrie chs e)) = true := by
      rw [List.all_eq_true]
      intro e he
      exact decide_eq_true (c1GcTrie_live chs e h50 h100 he)
    have hall2 :
        (stateAt chs h).all (fun e => decide (1 ≤ c1FreshTrie chs 100 e)) = true := by
      rw [List.all_eq_true]
      intro e he
      have := c1GcTrie_live chs e h50 h100 he
      rw [c1GcTrie_eq_fresh chs e] at this
      exact decide_eq_true this
    constructor
    · rw [iterTrie, if_pos hall]
    · rw [iterTrie, if_pos hall2]

/-- Concrete change assignment for the C1 witness: block at height `h`
overwrites key 0 with value `h`. -/
def c1WitnessChs : Nat → List Change := fun h => [(0, some h)]

set_option maxRecDepth 10000 in
/-- Witness for C1 at the concrete boundary height 50 with concrete changes. -/
theorem claim_c1_witness :
    (50 ≤ 50 ∧ 50 ≤ 100) ∧
      iterTrie (c1GcTrie c1WitnessChs) (stateAt c1WitnessChs 50) = some [0] := by
  refine ⟨⟨by decide, by decide⟩, ?_⟩
  have h := ((claim_c1 c1WitnessChs).2 50 (by decide) (by decide)).1
  rw [h]
  rfl

set_option maxRecDepth 200000 in
/-- C2.  In the `test_fork_far_away_from_epoch_end` scenario (epoch length
1100, 5 canonical blocks, a 2-block fork branching at height 5, canonical
extension to the epoch boundary 6601), one `clear_data(gc_blocks_limit = 100)`
call removes the canonical blocks at heights 1..4 but leaves both fork blocks
stored — the downward fork-tail sweep, bounded by `GC_FORK_CLEAN_STEP = 1000`
heights per invocation, stops at fork tail 101, far above them — and after
producing one more block and GC-ing again both fork blocks are gone. -/
theorem claim_c2 :
    (c2AfterFirst.present 1 = false ∧ c2AfterFirst.present 2 = false ∧
      c2AfterFirst.present 3 = false ∧ c2AfterFirst.present 4 = false) ∧
    (c2AfterFirst.present 10006 = true ∧ c2AfterFirst.present 10007 = true ∧
      c2AfterFirst.forkTail = 101) ∧
    (c2AfterSecond.present 10006 = false ∧
      c2AfterSecond.present 10007 = false) := by
  decide

end Gc

namespace ClientM

/-- Tip stored under the `HEAD` key (`near_primitives::block::Tip`). -/
structure Tip where
  height : Nat
  lastBlockHash : Nat
  prevBlockHash : Nat
  epochId : Nat
deriving DecidableEq

/-- The block-header fields `produce_block` reads. -/
structure BlockHeader where
  height : Nat
  prevHash : Nat
  epochId : Nat
  lastFinalBlock : Nat
deriving DecidableEq

/-- Error outcomes of `produce_block`: `Error::BlockProducer` when called
without a validator signer, a propagated chain/runtime error (`?`), or a
panic from `unwrap`/`expect`/`assert_eq`. -/
inductive PBErr
  | blockProducer
  | chainErr
  | panicked
deriving DecidableEq

/-- Read-only collaborators of `produce_block`: the chain store, the
`RuntimeAdapter` and the signer, abstracted as lookup functions.  `none`
models the corresponding Rust call returning `Err`.  `assembleBlock` bundles
the reads performed after the witness removal (block merkle tree, block
extra, previous block, epoch info, protocol versions) and the final
`Block::produce`; any failure among them propagates as a chain error. -/
structure PBEnv where
  validatorSigner : Option Nat
  signerPk : Nat → Nat
  head : Tip
  getEpochIdFromPrev : Nat → Option Nat
  getBlockProducer : Nat → Nat → Option Nat
  getHeader : Nat → Option BlockHeader
  isNextBlockEpochStart : Nat → Option Bool
  prevBlockIsCaughtUp : Nat → Nat → Option Bool
  getValidatorPk : Nat → Nat → Nat → Option (Nat × Bool)
  prepareChunks : Nat → List Nat
  produceEmptyBlocks : Bool
  assembleBlock : Nat → Option Nat

/-- Client-side mutable state `produce_block` touches: the persisted
`LATEST_KNOWN` height, the Doomslug tip, and the log of witness keys removed
by `doomslug.remove_witness`. -/
structure PBState where
  latestKnown : Nat
  dsTipHash : Nat
  dsTipHeight : Nat
  dsRemovedWitness : List (Nat × Nat × Nat)
deriving DecidableEq

/-- Embedding of `Client::check_and_update_doomslug_tip`: when the chain head
hash differs from Doomslug's tip, the head header and (when non-default) its
last final block header are read and the tip is moved to the head. -/
def checkAndUpdateDoomslugTip (env : PBEnv) (s : PBState) : Except PBErr PBState :=
  if env.head.lastBlockHash = s.dsTipHash then .ok s
  else
    match env.getHeader env.head.lastBlockHash with
    | none => .error .chainErr
    | some hdr =>
      if hdr.lastFinalBlock = 0 then
        .ok { s with dsTipHash := env.head.lastBlockHash,
                     dsTipHeight := env.head.height }
      else
        match env.getHeader hdr.lastFinalBlock with
        | none => .error .chainErr
        | some _ =>
          .ok { s with dsTipHash := env.head.lastBlockHash,
                       dsTipHeight := env.head.height }

/-- Embedding of `Client::produce_block` (client.rs lines 369–569), with the
exact order of effects: read `LATEST_KNOWN`, require a validator signer,
assert the head's epoch id, resolve the next proposer, read the head header,
update the Doomslug tip, then `should_reschedule_block` (height already
known → `Ok(None)`; not the proposer → `Ok(None)`; at an epoch start, a
not-caught-up previous block → `Ok(None)`), then the validator-key check,
chunk collection (skip on empty when `produce_empty_blocks` is off), the
Doomslug witness removal, block assembly, and — before returning the block —
the persistence of `LATEST_KNOWN = next_height`. -/
def produceBlock (env : PBEnv) (s : PBState) (nextHeight : Nat) :
    Except PBErr (Option Nat × PBState) :=
  let knownHeight := s.latestKnown
  match env.validatorSigner with
  | none => .error .blockProducer
  | some vs =>
    match env.getEpochIdFromPrev env.head.prevBlockHash with
    | none => .error .panicked
    | some e0 =>
      if e0 ≠ env.head.epochId then .error .panicked
      else
        match env.getEpochIdFromPrev env.head.lastBlockHash with
        | none => .error .panicked
        | some epochId =>
          match env.getBlockProducer epochId nextHeight with
          | none => .error .chainErr
          | some nextBlockProposer =>
            match env.getHeader env.head.lastBlockHash with
            | none => .error .chainErr
            | some prevHdr =>
              match checkAndUpdateDoomslugTip env s with
              | .error e => .error e
              | .ok s1 =>
                if nextHeight ≤ knownHeight then .ok (none, s1)
                else if vs ≠ nextBlockProposer then .ok (none, s1)
                else
                  match env.isNextBlockEpochStart env.head.lastBlockHash with
                  | none => .error .chainErr
                  | some isStart =>
                    let cont : Except PBErr (Option Nat × PBState) :=
                      match env.getValidatorPk epochId env.head.lastBlockHash
                          nextBlockProposer with
                      | none => .error .chainErr
                      | some (pk, _) =>
                        if pk ≠ env.signerPk vs then .ok (none, s1)
                        else if !env.produceEmptyBlocks &&
                            (env.prepareChunks env.head.lastBlockHash).isEmpty then
                          .ok (none, s1)
                        else
                          let s2 := { s1 with dsRemovedWitness :=
                            s1.dsRemovedWitness ++
                              [(env.head.lastBlockHash, env.head.height, nextHeight)] }
                          match env.assembleBlock nextHeight with
                          | none => .error .chainErr
                          | some blk =>
                            .ok (some blk, { s2 with latestKnown := nextHeight })
                    if isStart then
                      match env.prevBlockIsCaughtUp prevHdr.prevHash
                          env.head.lastBlockHash with
                      | none => .error .chainErr
                      | some true => cont
                      | some false => .ok (none, s1)
                    else cont

theorem checkTip_fixed (env : PBEnv) (s : PBState)
    (h : s.dsTipHash = env.head.lastBlockHash) :
    checkAndUpdateDoomslugTip env s = .ok s := by
  rw [checkAndUpdateDoomslugTip, if_pos h.symm]

theorem checkTip_sets (env : PBEnv) (s s1 : PBState)
    (h : checkAndUpdateDoomslugTip env s = .ok s1) :
    s1.dsTipHash = env.head.lastBlockHash := by
  rw [checkAndUpdateDoomslugTip] at h
  split at h
  · rename_i heq
    cases h
    exact heq.symm
  · split at h
    · cases h
    · rename_i hdr _
      split at h
      · cases h
        rfl
      · split at h
        · cases h
        · cases h
          rfl

/-- Core of the height-already-known rejection: under a present signer and
successful preliminary lookups, a call at a height at or below the persisted
`LATEST_KNOWN` returns `Ok(None)` without touching the state. -/
theorem produceBlock_knownReturnsNone (env : PBEnv) (t : PBState) (h : Nat)
    (vs : Nat) (hvs : env.validatorSigner = some vs)
    (e0 : Nat) (he0 : env.getEpochIdFromPrev env.head.prevBlockHash = some e0)
    (hne0 : ¬ e0 ≠ env.head.epochId)
    (pe : Nat) (hpe : env.getEpochIdFromPrev env.head.lastBlockHash = some pe)
    (bp2 : Nat) (hbp2 : env.getBlockProducer pe h = some bp2)
    (prevHdr : BlockHeader)
    (hhdr : env.getHeader env.head.lastBlockHash = some prevHdr)
    (htip : t.dsTipHash = env.head.lastBlockHash)
    (hle : h ≤ t.latestKnown) :
    produceBlock env t h = .ok (none, t) := by
  simp only [produceBlock, hvs, he0, hpe, hbp2, hhdr]
  rw [if_neg hne0, checkTip_fixed env t htip]
  simp [hle]

/-- C3.  `produce_block(next_height)` returns `Ok(None)` whenever it returns
`Ok` at all and `next_height ≤ latest_known.height`; and whenever it returns a
produced block it has first persisted `latest_known.height = next_height`, so
a repeated `produce_block(h)` with `h ≤ next_height` (for which the
block-producer lookup succeeds) returns `Ok(None)` — no double production
under retry. -/
theorem claim_c3 (env : PBEnv) (s s' : PBState) (n blk : Nat) :
    (∀ r, produceBlock env s n = .ok r → n ≤ s.latestKnown → r.1 = none) ∧
    (produceBlock env s n = .ok (some blk, s') →
      s'.latestKnown = n ∧
      ∀ h, h ≤ n →
        (∀ pe, env.getEpochIdFromPrev env.head.lastBlockHash = some pe →
          env.getBlockProducer pe h ≠ none) →
        produceBlock env s' h = .ok (none, s')) := by
  constructor
  · intro r hr hknown
    simp only [produceBlock] at hr
    repeat' split at hr
    all_goals
      first
        | (exact absurd hknown (by assumption))
        | (cases hr; rfl)
        | (cases hr)
  · intro hprod
    simp only [produceBlock] at hprod
    split at hprod
    · cases hprod
    rename_i vs hvs
    split at hprod
    · cases hprod
    rename_i e0 he0
    split at hprod
    · cases hprod
    rename_i hne0
    split at hprod
    · cases hprod
    rename_i pe hpe
    split at hprod
    · cases hprod
    rename_i bp hbp0
    split at hprod
    · cases hprod
    rename_i prevHdr hhdr
    split at hprod
    · cases hprod
    rename_i s1 hds
    split at hprod
    · cases hprod
    rename_i hnk
    split at hprod
    · cases hprod
    rename_i hprop
    split at hprod
    · cases hprod
    rename_i isStart hstart
    split at hprod
    case _ =>
      split at hprod
      · cases hprod
      case _ =>
        split at hprod
        · cases hprod
        rename_i pk pks hpk
        split at hprod
        · cases hprod
        rename_i hpkeq
        split at hprod
        · cases hprod
        rename_i hempty
        split at hprod
        · cases hprod
        rename_i blk0 hasm
        injection hprod with hinj
        injection hinj with hblk hs2
        subst hs2
        refine ⟨rfl, ?_⟩
        intro h hle hbpf
        obtain ⟨bp2, hbp2⟩ := Option.ne_none_iff_exists'.mp (hbpf pe hpe)
        exact produceBlock_knownReturnsNone env _ h vs hvs e0 he0 hne0 pe hpe
          bp2 hbp2 prevHdr hhdr (checkTip_sets env s s1 hds) hle
      case _ =>
        cases hprod
    case _ =>
      split at hprod
      · cases hprod
      rename_i pk pks hpk
      split at hprod
      · cases hprod
      rename_i hpkeq
      split at hprod
      · cases hprod
      rename_i hempty
      split at hprod
      · cases hprod
      rename_i blk0 hasm
      injection hprod with hinj
      injection hinj with hblk hs2
      subst hs2
      refine ⟨rfl, ?_⟩
      intro h hle hbpf
      obtain ⟨bp2, hbp2⟩ := Option.ne_none_iff_exists'.mp (hbpf pe hpe)
      exact produceBlock_knownReturnsNone env _ h vs hvs e0 he0 hne0 pe hpe
        bp2 hbp2 prevHdr hhdr (checkTip_sets env s s1 hds) hle

/-- Concrete environment for the C3 witness: validator 1 produces every
height, head at height 5. -/
def c3Env : PBEnv where
  validatorSigner := some 1
  signerPk := fun a => a
  head := { height := 5, lastBlockHash := 100, prevBlockHash := 99, epochId := 0 }
  getEpochIdFromPrev := fun _ => some 0
  getBlockProducer := fun _ _ => some 1
  getHeader := fun _ =>
    some { height := 5, prevHash := 99, epochId := 0, lastFinalBlock := 0 }
  isNextBlockEpochStart := fun _ => some false
  prevBlockIsCaughtUp := fun _ _ => some true
  getValidatorPk := fun _ _ a => some (a, false)
  prepareChunks := fun _ => [7]
  produceEmptyBlocks := true
  assembleBlock := fun h => some h

/-- Initial client state for the C3 witness. -/
def c3Init : PBState where
  latestKnown := 5
  dsTipHash := 100
  dsTipHeight := 5
  dsRemovedWitness := []

/-- Expected state after successfully producing height 6. -/
def c3After : PBState where
  latestKnown := 6
  dsTipHash := 100
  dsTipHeight := 5
  dsRemovedWitness := [(100, 5, 6)]

/-- Witness for C3: a concrete successful production at height 6 followed by
a retry at the same height that returns `Ok(None)`. -/
theorem claim_c3_witness :
    produceBlock c3Env c3Init 6 = .ok (some 6, c3After) ∧ (6 : Nat) ≤ 6 ∧
      produceBlock c3Env c3After 6 = .ok (none, c3After) := by
  have hprod : produceBlock c3Env c3Init 6 = .ok (some 6, c3After) := rfl
  refine ⟨hprod, by decide, ?_⟩
  exact ((claim_c3 c3Env c3Init c3After 6 6).2 hprod).2 6 (by decide)
    (fun pe _ => by simp [c3Env])

end ClientM



namespace Approvals

/-- Removal of an account's entry from the Doomslug witness map
(`HashMap::remove(&account_id)`): returns the removed signature, if present,
together with the remaining map. -/
def removeAcc (a : Nat) : List (Nat × Nat) → Option Nat × List (Nat × Nat)
  | [] => (none, [])
  | (b, sig) :: rest =>
    if b = a then (some sig, rest)
    else
      let r := removeAcc a rest
      (r.1, (b, sig) :: r.2)

/-- Signature lookup in the witness map. -/
def lookupAcc (a : Nat) : List (Nat × Nat) → Option Nat
  | [] => none
  | (b, sig) :: rest => if b = a then some sig else lookupAcc a rest

/-- Embedding of the approvals assembly of `produce_block` (client.rs
438–459): the witness map removed by `doomslug.remove_witness` is folded over
`get_epoch_block_approvers_ordered(prev_hash)`; a slashed approver contributes
`None` (without removing its witness entry), an unslashed one contributes
`approvals_map.remove(&account_id).map(|x| x.signature)`.  Returns the
approval list together with the leftover map that
`debug_assert_eq!(approvals_map.len(), 0)` inspects. -/
def collectApprovals :
    List (Nat × Bool) → List (Nat × Nat) → List (Option Nat) × List (Nat × Nat)
  | [], m => ([], m)
  | (acc, slashed) :: rest, m =>
    if slashed then
      let r := collectApprovals rest m
      (none :: r.1, r.2)
    else
      let rm := removeAcc acc m
      let r := collectApprovals rest rm.2
      (rm.1 :: r.1, r.2)

/-- Accounts appearing unslashed in the ordered approvers list. -/
def nonSlashed (aps : List (Nat × Bool)) : List Nat :=
  (aps.filter (fun p => !p.2)).map Prod.fst

theorem removeAcc_sublist (a : Nat) :
    ∀ m : List (Nat × Nat), (removeAcc a m).2.Sublist m
  | [] => List.Sublist.refl _
  | (b, sig) :: rest => by
    rw [removeAcc]
    by_cases hb : b = a
    · rw [if_pos hb]
      exact List.sublist_cons_self _ _
    · rw [if_neg hb]
      exact List.Sublist.cons₂ _ (removeAcc_sublist a rest)

theorem removeAcc_fst (a : Nat) :
    ∀ m : List (Nat × Nat), (removeAcc a m).1 = lookupAcc a m
  | [] => rfl
  | (b, sig) :: rest => by
    rw [removeAcc, lookupAcc]
    by_cases hb : b = a
    · rw [if_pos hb, if_pos hb]
    · rw [if_neg hb, if_neg hb]
      exact removeAcc_fst a rest

theorem lookupAcc_removeAcc_other (a b : Nat) (hne : b ≠ a) :
    ∀ m : List (Nat × Nat), lookupAcc b (removeAcc a m).2 = lookupAcc b m
  | [] => rfl
  | (c, sig) :: rest => by
    rw [removeAcc]
    by_cases hc : c = a
    · subst hc
      rw [if_pos rfl, lookupAcc, if_neg (fun hcb => hne hcb.symm)]
    · rw [if_neg hc]
      rw [lookupAcc, lookupAcc]
      by_cases hcb : c = b
      · rw [if_pos hcb, if_pos hcb]
      · rw [if_neg hcb, if_neg hcb]
        exact lookupAcc_removeAcc_other a b hne rest


theorem not_mem_keys_removeAcc (a : Nat) :
    ∀ m : List (Nat × Nat), (m.map Prod.fst).Nodup →
      a ∉ (removeAcc a m).2.map Prod.fst
  | [], _ => by simp [removeAcc]
  | p :: ps, hnd => by
    rw [List.map_cons, List.nodup_cons] at hnd
    rw [removeAcc]
    by_cases hp : p.1 = a
    · rw [if_pos hp]
      rw [hp] at hnd
      exact hnd.1
    · rw [if_neg hp]
      intro hmem
      simp only [List.map_cons, List.mem_cons] at hmem
      rcases hmem with hmem | hmem
      · exact hp hmem.symm
      · exact not_mem_keys_removeAcc a ps hnd.2 hmem

theorem collectApprovals_drains :
    ∀ (aps : List (Nat × Bool)) (m : List (Nat × Nat)),
      (m.map Prod.fst).Nodup →
      (∀ b ∈ m.map Prod.fst, b ∈ nonSlashed aps) →
      (collectApprovals aps m).2 = []
  | [], m => by
    intro _ hcov
    cases m with
    | nil => rfl
    | cons p rest =>
      exact absurd (hcov p.1 (by simp)) (by simp [nonSlashed])
  | (acc, slashed) :: rest, m => by
    intro hnd hcov
    rw [collectApprovals]
    by_cases hsl : slashed
    · rw [if_pos hsl]
      refine collectApprovals_drains rest m hnd ?_
      intro b hb
      have := hcov b hb
      simpa [nonSlashed, hsl] using this
    · rw [if_neg hsl]
      have hsub := removeAcc_sublist acc m
      refine collectApprovals_drains rest (removeAcc acc m).2
        ((hsub.map Prod.fst).nodup hnd) ?_
      intro b hb
      have hbm : b ∈ m.map Prod.fst := (hsub.map Prod.fst).mem hb
      have hcov' := hcov b hbm
      have hbne : b ≠ acc := by
        intro hbe
        subst hbe
        exact not_mem_keys_removeAcc b m hnd hb
      simp only [nonSlashed, List.filter_cons] at hcov'
      by_cases hsl2 : (!(slashed : Bool)) = true
      · rw [if_pos hsl2] at hcov'
        simp only [List.map_cons, List.mem_cons] at hcov'
        rcases hcov' with h | h
        · exact absurd h hbne
        · exact h
      · rw [if_neg hsl2] at hcov'
        exact hcov'

theorem collectApprovals_out :
    ∀ (aps : List (Nat × Bool)) (m : List (Nat × Nat)),
      (aps.map Prod.fst).Nodup →
      (collectApprovals aps m).1 =
        aps.map (fun p => if p.2 then none else lookupAcc p.1 m)
  | [], _ => by intro _; rfl
  | (acc, slashed) :: rest, m => by
    intro hnd
    rw [List.map_cons, List.nodup_cons] at hnd
    rw [collectApprovals]
    by_cases hsl : slashed
    · rw [if_pos hsl]
      simp only [List.map_cons]
      rw [if_pos hsl, collectApprovals_out rest m hnd.2]
    · rw [if_neg hsl]
      simp only [List.map_cons]
      rw [if_neg hsl, removeAcc_fst]
      rw [collectApprovals_out rest (removeAcc acc m).2 hnd.2]
      refine congrArg _ (List.map_congr_left ?_)
      intro p hp
      by_cases hp2 : p.2
      · simp [hp2]
      · simp only [hp2, if_false]
        have hpne : p.1 ≠ acc := by
          intro he
          have hmem : p.1 ∈ rest.map Prod.fst := List.mem_map_of_mem Prod.fst hp
          rw [he] at hmem
          exact hnd.1 hmem
        simp [hp2]
        exact lookupAcc_removeAcc_other acc p.1 hpne m


/-- C4 (counterexample).  The claim states the post-assembly assertion
`approvals_map.len() == 0` holds even in states where a slashed approver has
an approval in the witness.  It does not: with the single approver account 0
slashed and a witness entry for account 0, the assembly leaves the entry in
the map (the `is_slashed` arm returns `None` without removing), so the
leftover length is 1, not 0. -/
theorem claim_c4_counterexample :
    ((collectApprovals [(0, true)] [(0, 42)]).2).length ≠ 0 := by decide

/-- C4 (amended).  When the ordered approver accounts are distinct and every
account in the removed witness map appears as a *non-slashed* approver, the
assembled entry for each approver is `Some(signature)` iff the approver is not
slashed and the witness holds its approval (`None` otherwise), and afterwards
the witness map is fully drained, so `debug_assert_eq!(approvals_map.len(), 0)`
holds. -/
theorem claim_c4 (aps : List (Nat × Bool)) (m : List (Nat × Nat))
    (hndAps : (aps.map Prod.fst).Nodup) (hndM : (m.map Prod.fst).Nodup)
    (hcov : ∀ b ∈ m.map Prod.fst, b ∈ nonSlashed aps) :
    (collectApprovals aps m).1 =
      aps.map (fun p => if p.2 then none else lookupAcc p.1 m) ∧
    (collectApprovals aps m).2.length = 0 := by
  refine ⟨collectApprovals_out aps m hndAps, ?_⟩
  rw [collectApprovals_drains aps m hndM hcov]
  rfl

/-- Witness for the amended C4 at a concrete approver list and witness map. -/
theorem claim_c4_witness :
    (([(0, false), (1, true)].map Prod.fst : List Nat).Nodup ∧
      (([((0 : Nat), (42 : Nat))].map Prod.fst).Nodup) ∧
      (∀ b ∈ [((0 : Nat), (42 : Nat))].map Prod.fst,
        b ∈ nonSlashed [(0, false), (1, true)])) ∧
    (collectApprovals [(0, false), (1, true)] [(0, 42)]).1 = [some 42, none] ∧
    (collectApprovals [(0, false), (1, true)] [(0, 42)]).2.length = 0 := by
  refine ⟨⟨by decide, by decide, by decide⟩, ?_, ?_⟩
  · have h := (claim_c4 [(0, false), (1, true)] [(0, 42)] (by decide) (by decide)
      (by decide)).1
    rw [h]
    rfl
  · exact (claim_c4 [(0, false), (1, true)] [(0, 42)] (by decide) (by decide)
      (by decide)).2

end Approvals


namespace ProcessBlock

/-- Error kinds of `chain.process_block` relevant to the challenge logic,
with the challenge payload carried inline. -/
inductive ChainErrKind
  | invalidChunkProofs (proofs : Nat)
  | invalidChunkState (chunkState : Nat)
  | orphan
  | other
deriving DecidableEq

/-- Network requests the client emits while processing a block. -/
inductive NetRequest
  | challengeChunkProofs (proofs signer : Nat)
  | challengeChunkState (chunkState signer : Nat)
  | challengeBody (body signer : Nat)
deriving DecidableEq

/-- Environment of `Client::process_block`: the signer and, per block hash,
the outcome of `chain.process_block` — the blocks its accepted-callback fired
for, the challenges its challenge-callback collected, and its result. -/
structure PBlockEnv where
  validatorSigner : Option Nat
  chainAccepted : Nat → List Nat
  chainChallenges : Nat → List Nat
  chainResult : Nat → Except ChainErrKind (Option Nat)

/-- Embedding of `send_challenges`: each accumulated challenge body is signed
and broadcast only when the client holds a validator signer. -/
def sendChallenges (signer : Option Nat) (bodies : List Nat) : List NetRequest :=
  match signer with
  | none => []
  | some vs => bodies.map (fun b => .challengeBody b vs)

/-- Embedding of the challenge synthesis of `Client::process_block`
(client.rs 792–816): only under `if let Some(validator_signer)`, an
`InvalidChunkProofs` error broadcasts a `ChunkProofs` challenge and an
`InvalidChunkState` error a `ChunkState` challenge. -/
def challengeRequests (signer : Option Nat)
    (result : Except ChainErrKind (Option Nat)) : List NetRequest :=
  match signer with
  | none => []
  | some vs =>
    match result with
    | .error e =>
      match e with
      | .invalidChunkProofs p => [.challengeChunkProofs p vs]
      | .invalidChunkState st => [.challengeChunkState st vs]
      | _ => []
    | .ok _ => []

/-- Result view of `Client::process_block`: accepted blocks, network sends,
and the propagated chain result. -/
structure PBRes where
  accepted : List Nat
  sent : List NetRequest
  result : Except ChainErrKind (Option Nat)

/-- Embedding of `Client::process_block` around the chain call: challenges
accumulated by the chain are sent, then the error-triggered challenge. -/
def processBlock (env : PBlockEnv) (b : Nat) : PBRes :=
  { accepted := env.chainAccepted b
    sent := sendChallenges env.validatorSigner (env.chainChallenges b) ++
      challengeRequests env.validatorSigner (env.chainResult b)
    result := env.chainResult b }

/-- Signerless client environment whose chain rejects block 0 with
`InvalidChunkProofs`. -/
def c5NoSignerEnv : PBlockEnv where
  validatorSigner := none
  chainAccepted := fun _ => []
  chainChallenges := fun _ => []
  chainResult := fun _ => .error (.invalidChunkProofs 5)

/-- C5 (counterexample).  The claim requires the challenge to be sent "for
every client regardless of whether it holds a validator signer".  A client
without a signer whose chain rejects a block with `InvalidChunkProofs` sends
no network request at all: the challenge synthesis sits inside
`if let Some(validator_signer)`. -/
theorem claim_c5_counterexample :
    (processBlock c5NoSignerEnv 0).result = .error (.invalidChunkProofs 5) ∧
    (processBlock c5NoSignerEnv 0).sent = [] := by
  constructor <;> rfl

/-- C5 (amended).  When the client holds a validator signer and
`chain.process_block` fails with `InvalidChunkProofs` (resp.
`InvalidChunkState`), `process_block` broadcasts the corresponding
`ChunkProofs` (resp. `ChunkState`) challenge, and — given that an erroring
chain call accepts no block (a property of the external `Chain`, modelled
from the spec) — the block is not among the accepted blocks. -/
theorem claim_c5 (env : PBlockEnv) (b vs : Nat)
    (hsig : env.validatorSigner = some vs)
    (hdiscard : ∀ e, env.chainResult b = .error e → b ∉ env.chainAccepted b) :
    (∀ p, env.chainResult b = .error (.invalidChunkProofs p) →
      (.challengeChunkProofs p vs) ∈ (processBlock env b).sent ∧
      b ∉ (processBlock env b).accepted) ∧
    (∀ st, env.chainResult b = .error (.invalidChunkState st) →
      (.challengeChunkState st vs) ∈ (processBlock env b).sent ∧
      b ∉ (processBlock env b).accepted) := by
  constructor
  · intro p hp
    refine ⟨?_, hdiscard _ hp⟩
    simp [processBlock, challengeRequests, hsig, hp]
  · intro st hst
    refine ⟨?_, hdiscard _ hst⟩
    simp [processBlock, challengeRequests, hsig, hst]

/-- Environment with a signer for the C5 witness. -/
def c5SignerEnv : PBlockEnv where
  validatorSigner := some 9
  chainAccepted := fun _ => []
  chainChallenges := fun _ => []
  chainResult := fun _ => .error (.invalidChunkProofs 5)

/-- Witness for the amended C5: a signer-holding client at a concrete
`InvalidChunkProofs` rejection. -/
theorem claim_c5_witness :
    c5SignerEnv.validatorSigner = some 9 ∧
    ((NetRequest.challengeChunkProofs 5 9) ∈ (processBlock c5SignerEnv 0).sent ∧
      0 ∉ (processBlock c5SignerEnv 0).accepted) := by
  refine ⟨rfl, ?_⟩
  exact (claim_c5 c5SignerEnv 0 9 rfl (fun e _ => by simp [c5SignerEnv])).1 5 rfl

end ProcessBlock

namespace ApprovalRouting

/-- The `ApprovalInner` sum: endorsement of a parent hash or skip of a parent
height. -/
inductive AInner
  | endorsement (h : Nat)
  | skip (height : Nat)
deriving DecidableEq

/-- An approval message `{inner, target_height, account_id, signature}`. -/
structure Approval2 where
  inner : AInner
  accountId : Nat
  targetHeight : Nat
  sig : Nat
deriving DecidableEq

/-- Provenance of the approval (`ApprovalType`). -/
inductive ApprType
  | selfApproval
  | peerApproval (peer : Nat)
deriving DecidableEq

/-- Chain error kinds observed by approval routing. -/
inductive CErr
  | dbNotFound
  | notAValidator
  | other
deriving DecidableEq

/-- Collaborators of `collect_block_approval`, abstracted. -/
structure CBAEnv where
  getHeaderByHeight : Nat → Except CErr Nat
  getEpochIdFromPrev : Nat → Except CErr Nat
  getNextEpochIdFromPrev : Nat → Except CErr Nat
  getValidatorStake : Nat → Nat → Nat → Except CErr Unit
  verifySig : Nat → Nat → Approval2 → Bool
  getBlockProducer : Nat → Nat → Except CErr Nat
  validatorId : Option Nat
  getBlockHeader : Nat → Except CErr Unit
  head : Option (Nat × Nat × Nat)
  isValidatorAt : Nat → Nat → Nat → Bool
  approvers : Nat → Except CErr (List Nat)
  cap : Nat

/-- Client state touched by approval routing: the `pending_approvals` LRU
(front = most recently used) and the log of `doomslug.on_approval_message`
calls. -/
structure CBAState where
  pending : List (AInner × List (Nat × Approval2))
  dsCalls : List Approval2
deriving DecidableEq

/-- Entry lookup in the LRU. -/
def findEntry (k : AInner) :
    List (AInner × List (Nat × Approval2)) → Option (List (Nat × Approval2))
  | [] => none
  | (k2, v) :: rest => if k2 = k then some v else findEntry k rest

/-- Account lookup inside one pending entry. -/
def findAcc (a : Nat) : List (Nat × Approval2) → Option Approval2
  | [] => none
  | (b, ap) :: rest => if b = a then some ap else findAcc a rest

/-- Removal of an entry from the LRU (`pop`). -/
def lruDrop (k : AInner) :
    List (AInner × List (Nat × Approval2)) → List (AInner × List (Nat × Approval2))
  | [] => []
  | (k2, v) :: rest => if k2 = k then rest else (k2, v) :: lruDrop k rest

/-- Insertion at the most-recent end with LRU eviction past capacity
(`put` on a key that was just popped). -/
def lruPut (cap : Nat) (k : AInner) (v : List (Nat × Approval2))
    (l : List (AInner × List (Nat × Approval2))) :
    List (AInner × List (Nat × Approval2)) :=
  let l2 := (k, v) :: l
  if cap < l2.length then l2.dropLast else l2

/-- `HashMap::insert` on a pending entry: any previous approval of the
account is replaced. -/
def insertAcc (a : Nat) (ap : Approval2) (l : List (Nat × Approval2)) :
    List (Nat × Approval2) :=
  l.filter (fun p => decide (p.1 ≠ a)) ++ [(a, ap)]

/-- Combined lookup: the approval parked for `(inner, account)`. -/
def lookupPending (k : AInner) (a : Nat)
    (l : List (AInner × List (Nat × Approval2))) : Option Approval2 :=
  match findEntry k l with
  | none => none
  | some entry => findAcc a entry

/-- Embedding of `Client::handle_process_approval_error` (client.rs
1344–1381): on `DBNotFound` — after an optional validator check against the
head epochs when `check_validator` is set — the approval is parked in
`pending_approvals` under its `ApprovalInner`; any other error drops it. -/
def handleProcessApprovalError (env : CBAEnv) (s : CBAState)
    (approval : Approval2) (checkValidator : Bool) (err : CErr) : CBAState :=
  if err = .dbNotFound then
    let proceed :=
      if checkValidator then
        match env.head with
        | none => false
        | some (epochId, nextEpochId, lastHash) =>
          env.isValidatorAt epochId lastHash approval.accountId ||
          env.isValidatorAt nextEpochId lastHash approval.accountId
      else true
    if proceed then
      let entry := (findEntry approval.inner s.pending).getD []
      let rest := lruDrop approval.inner s.pending
      let entry2 := insertAcc approval.accountId approval entry
      { s with pending := lruPut env.cap approval.inner entry2 rest }
    else s
  else s

/-- Resolution of the approval's parent hash: an endorsement carries it, a
skip resolves the canonical header at the parent height. -/
def resolveParent (env : CBAEnv) : AInner → Except CErr Nat
  | .endorsement h => .ok h
  | .skip ht => env.getHeaderByHeight ht

/-- The peer-signature phase: for a `PeerApproval`, find the validator's
epoch (retrying with the next epoch on `NotAValidator`) and check the
signature; `false` means silent drop. -/
def sigPhaseOk (env : CBAEnv) (eid parentHash : Nat) (approval : Approval2) :
    ApprType → Bool
  | .selfApproval => true
  | .peerApproval _ =>
    match env.getValidatorStake eid parentHash approval.accountId with
    | .ok _ => env.verifySig eid parentHash approval
    | .error .notAValidator =>
      match env.getNextEpochIdFromPrev parentHash with
      | .ok e2 => env.verifySig e2 parentHash approval
      | .error _ => false
    | .error _ => false

/-- Whether this node is the block producer at `(epoch, target_height)`
(a failing lookup counts as not-producer). -/
def isBlockProducerAt (env : CBAEnv) (eid th : Nat) : Bool :=
  match env.getBlockProducer eid th with
  | .error _ => false
  | .ok bp => env.validatorId == some bp

/-- Embedding of `Client::collect_block_approval` (client.rs 1395–1489). -/
def collectBlockApproval (env : CBAEnv) (s : CBAState) (approval : Approval2)
    (atype : ApprType) : CBAState :=
  match resolveParent env approval.inner with
  | .error e => handleProcessApprovalError env s approval true e
  | .ok parentHash =>
    match env.getEpochIdFromPrev parentHash with
    | .error e => handleProcessApprovalError env s approval true e
    | .ok nextBlockEpochId =>
      if sigPhaseOk env nextBlockEpochId parentHash approval atype then
        if isBlockProducerAt env nextBlockEpochId approval.targetHeight then
          match env.approvers parentHash with
          | .error _ => s
          | .ok _ => { s with dsCalls := s.dsCalls ++ [approval] }
        else
          match env.getBlockHeader parentHash with
          | .ok _ => s
          | .error e => handleProcessApprovalError env s approval false e
      else s

theorem findAcc_append_of_none (a : Nat) (ap : Approval2) :
    ∀ l : List (Nat × Approval2), (∀ p ∈ l, p.1 ≠ a) →
      findAcc a (l ++ [(a, ap)]) = some ap
  | [], _ => by simp [findAcc]
  | p :: ps, hne => by
    rw [List.cons_append, findAcc, if_neg (hne p (List.mem_cons_self p ps))]
    exact findAcc_append_of_none a ap ps (fun q hq => hne q (List.mem_cons_of_mem p hq))

theorem findAcc_insertAcc (a : Nat) (ap : Approval2) (l : List (Nat × Approval2)) :
    findAcc a (insertAcc a ap l) = some ap := by
  rw [insertAcc]
  refine findAcc_append_of_none a ap _ ?_
  intro p hp
  have := (List.mem_filter.mp hp).2
  rwa [decide_eq_true_iff] at this


theorem findEntry_lruPut (cap : Nat) (k : AInner) (v : List (Nat × Approval2))
    (l : List (AInner × List (Nat × Approval2))) (hcap : 1 ≤ cap) :
    findEntry k (lruPut cap k v l) = some v := by
  simp only [lruPut]
  by_cases hlen : cap < ((k, v) :: l).length
  · rw [if_pos hlen]
    match l, hlen with
    | [], hlen => simp at hlen; omega
    | x :: xs, _ =>
      rw [show ((k, v) :: x :: xs).dropLast = (k, v) :: (x :: xs).dropLast from rfl]
      rw [findEntry, if_pos rfl]
  · rw [if_neg hlen, findEntry, if_pos rfl]

/-- C6.  In `collect_block_approval`, when the parent hash and the next
block's epoch resolve, the signature phase passes and this node is *not* the
block producer for `(next_block_epoch_id, target_height)`: if the parent
header is known the approval is dropped with no change to `pending_approvals`
or Doomslug, and if the header lookup fails with `DBNotFound` the approval is
parked in `pending_approvals` keyed by its `ApprovalInner` (capacity ≥ 1), with
no Doomslug call. -/
theorem claim_c6 (env : CBAEnv) (s : CBAState) (approval : Approval2)
    (atype : ApprType) (parentHash eid : Nat)
    (hpar : resolveParent env approval.inner = .ok parentHash)
    (hep : env.getEpochIdFromPrev parentHash = .ok eid)
    (hsig : sigPhaseOk env eid parentHash approval atype = true)
    (hnbp : isBlockProducerAt env eid approval.targetHeight = false)
    (hcap : 1 ≤ env.cap) :
    (∀ u, env.getBlockHeader parentHash = .ok u →
      collectBlockApproval env s approval atype = s) ∧
    (env.getBlockHeader parentHash = .error .dbNotFound →
      (collectBlockApproval env s approval atype).dsCalls = s.dsCalls ∧
      lookupPending approval.inner approval.accountId
        (collectBlockApproval env s approval atype).pending = some approval) := by
  have hunfold : collectBlockApproval env s approval atype =
      (match env.getBlockHeader parentHash with
        | .ok _ => s
        | .error e => handleProcessApprovalError env s approval false e) := by
    simp [collectBlockApproval, hpar, hep, hsig, hnbp]
  constructor
  · intro u hu
    rw [hunfold, hu]
  · intro herr
    rw [hunfold, herr]
    constructor
    · simp [handleProcessApprovalError]
    · simp [handleProcessApprovalError, lookupPending,
        findEntry_lruPut _ _ _ _ hcap, findAcc_insertAcc]


def c6Env : CBAEnv where
  getHeaderByHeight := fun _ => .ok 50
  getEpochIdFromPrev := fun _ => .ok 3
  getNextEpochIdFromPrev := fun _ => .ok 4
  getValidatorStake := fun _ _ _ => .ok ()
  verifySig := fun _ _ _ => true
  getBlockProducer := fun _ _ => .ok 2
  validatorId := some 1
  getBlockHeader := fun _ => .error .dbNotFound
  head := none
  isValidatorAt := fun _ _ _ => true
  approvers := fun _ => .ok []
  cap := 4

def c6Approval : Approval2 :=
  { inner := .endorsement 100, accountId := 7, targetHeight := 12, sig := 99 }

def c6State : CBAState := { pending := [], dsCalls := [] }

/-- Witness for C6 at a concrete non-producer state whose header lookup
fails with `DBNotFound`. -/
theorem claim_c6_witness :
    (resolveParent c6Env c6Approval.inner = .ok 100 ∧
      c6Env.getEpochIdFromPrev 100 = .ok 3 ∧
      sigPhaseOk c6Env 3 100 c6Approval .selfApproval = true ∧
      isBlockProducerAt c6Env 3 c6Approval.targetHeight = false ∧
      1 ≤ c6Env.cap ∧ c6Env.getBlockHeader 100 = .error .dbNotFound) ∧
    ((collectBlockApproval c6Env c6State c6Approval .selfApproval).dsCalls = [] ∧
      lookupPending c6Approval.inner c6Approval.accountId
        (collectBlockApproval c6Env c6State c6Approval .selfApproval).pending =
          some c6Approval) := by
  refine ⟨⟨rfl, rfl, rfl, rfl, by decide, rfl⟩, ?_⟩
  have h := (claim_c6 c6Env c6State c6Approval .selfApproval 100 3 rfl rfl rfl rfl
    (by decide)).2 rfl
  exact ⟨h.1, h.2⟩

end ApprovalRouting


namespace BlockAccepted

/-- Header fields the reorg walk reads: height and parent hash. -/
structure Hdr where
  height : Nat
  prev : Nat
deriving DecidableEq

/-- Block status reported by the chain when a block is accepted. -/
inductive BStatus
  | next
  | fork
  | reorg (prevHead : Nat)
deriving DecidableEq

/-- Provenance of the accepted block (`Provenance::PRODUCED/SYNC/NONE`). -/
inductive Prov
  | produced
  | sync
  | received
deriving DecidableEq

/-- The externally visible steps of
`on_block_accepted_with_optional_chunk_produce`, in execution order. -/
inductive Action
  | updateDoomslugTip
  | drainPendingApprovals
  | pruneMissingChunksPool
  | runGC
  | produceChunks
  | checkIncompleteChunks (blockHash : Nat)
deriving DecidableEq

/-- Collaborators of `on_block_accepted`, abstracted: the signer, header
lookups, each block's transactions for one tracked shard, the validity filter
the mempool applies on reinsertion (modelled from the spec's mempool
round-trip property, the `ShardsManager` pool not being among the sources),
block retrievability for the reconciliation loops, and the chunks completed
by accepting a block (driving the recursive `check_incomplete_chunks`). -/
structure OBAEnv where
  validatorSigner : Option Nat
  headers : Nat → Option Hdr
  blockTxs : Nat → Finset Nat
  validTxs : Finset Nat
  blockPresent : Nat → Bool
  provenance : Prov
  syncing : Bool
  completedBy : Nat → List (Nat × BStatus)

/-- One inner `while` of the reorg walk: starting from `cur`, repeatedly pop
the current block (appending its hash) and move to its parent while `contP`
holds, stopping at the first block where it fails; `none` models the `unwrap`
panic on a missing header, or fuel exhaustion. -/
def popBranch (env : OBAEnv) (contP : Nat → Hdr → Bool) :
    Nat → (Nat × Hdr) → List Nat → Option ((Nat × Hdr) × List Nat)
  | 0, _, _ => none
  | fuel + 1, cur, acc =>
    if contP cur.1 cur.2 then
      match env.headers cur.2.prev with
      | none => none
      | some h2 => popBranch env contP fuel (cur.2.prev, h2) (acc ++ [cur.1])
    else some (cur, acc)

/-- The nested reorg loop of `on_block_accepted` (client.rs 1156–1176):
while the two heads differ, `remove_head` (on the new chain) descends while
strictly higher than `reintroduce_head`, then `reintroduce_head` (on the
abandoned chain) descends while strictly higher than the new `remove_head`,
or at equal height with a different hash. -/
def reorgLoop (env : OBAEnv) :
    Nat → (Nat × Hdr) → (Nat × Hdr) → List Nat → List Nat →
    Option (List Nat × List Nat)
  | 0, _, _, _, _ => none
  | fuel + 1, rh, ih, toRemove, toIntro =>
    if rh.1 = ih.1 then some (toRemove, toIntro)
    else
      match popBranch env (fun _ h => decide (ih.2.height < h.height))
          (rh.2.height + 1) rh toRemove with
      | none => none
      | some rr =>
        match popBranch env
            (fun x h => decide (rr.1.2.height < h.height) ||
              (decide (h.height = rr.1.2.height) && decide (x ≠ rr.1.1)))
            (ih.2.height + 1) ih toIntro with
        | none => none
        | some ii => reorgLoop env fuel rr.1 ii.1 rr.2 ii.2

/-- The branch of the block DAG from `x` (with header `hx`) down to, and
excluding, the common ancestor `c` (with header `hc`): `L` lists the hashes
on the way, parent links and strictly decreasing heights included. -/
def IsBranch (env : OBAEnv) : Nat → Hdr → List Nat → Nat → Hdr → Prop
  | x, hx, [], c, hc => x = c ∧ hx = hc
  | x, hx, y :: L, c, hc =>
    y = x ∧ env.headers x = some hx ∧
      ∃ hp, env.headers hx.prev = some hp ∧ hp.height < hx.height ∧
        IsBranch env hx.prev hp L c hc

theorem IsBranch.height_le {env : OBAEnv} :
    ∀ {L : List Nat} {x : Nat} {hx : Hdr} {c : Nat} {hc : Hdr},
      IsBranch env x hx L c hc → hc.height ≤ hx.height
  | [], x, hx, c, hc, h => by
    rw [IsBranch] at h
    rw [h.2]
  | y :: L, x, hx, c, hc, h => by
    rw [IsBranch] at h
    obtain ⟨-, -, hp, -, hlt, hbr⟩ := h
    exact Nat.le_trans (IsBranch.height_le hbr) (Nat.le_of_lt hlt)

theorem IsBranch.height_lt {env : OBAEnv} {L : List Nat} {y x : Nat} {hx : Hdr}
    {c : Nat} {hc : Hdr} (h : IsBranch env x hx (y :: L) c hc) :
    hc.height < hx.height := by
  rw [IsBranch] at h
  obtain ⟨-, -, hp, -, hlt, hbr⟩ := h
  exact Nat.lt_of_le_of_lt (IsBranch.height_le hbr) hlt

theorem IsBranch.length_le {env : OBAEnv} :
    ∀ {L : List Nat} {x : Nat} {hx : Hdr} {c : Nat} {hc : Hdr},
      IsBranch env x hx L c hc → L.length + hc.height ≤ hx.height
  | [], x, hx, c, hc, h => by
    rw [IsBranch] at h
    rw [h.2]
    simp
  | y :: L, x, hx, c, hc, h => by
    rw [IsBranch] at h
    obtain ⟨-, -, hp, -, hlt, hbr⟩ := h
    have := IsBranch.length_le hbr
    simp only [List.length_cons]
    omega

theorem IsBranch.head_eq {env : OBAEnv} {L : List Nat} {y x : Nat} {hx : Hdr}
    {c : Nat} {hc : Hdr} (h : IsBranch env x hx (y :: L) c hc) : y = x := by
  rw [IsBranch] at h
  exact h.1

theorem IsBranch.headers_eq {env : OBAEnv} {L : List Nat} {y x : Nat}
    {hx : Hdr} {c : Nat} {hc : Hdr} (h : IsBranch env x hx (y :: L) c hc) :
    env.headers x = some hx := by
  rw [IsBranch] at h
  exact h.2.1

/-- Correctness of one inner walk along a branch: it splits the branch at the
first block where `contP` fails (`contP` failing at the common ancestor
guarantees the stop), returns the popped prefix appended to the accumulator,
and leaves a branch suffix; an empty pop leaves the head untouched. -/
theorem popBranch_correct (env : OBAEnv) (contP : Nat → Hdr → Bool) :
    ∀ (B : List Nat) (x : Nat) (hx : Hdr) (c : Nat) (hc : Hdr) (fuel : Nat)
      (acc : List Nat),
      IsBranch env x hx B c hc → contP c hc = false → B.length < fuel →
      ∃ B1 B2 x2 hx2,
        B = B1 ++ B2 ∧
        popBranch env contP fuel (x, hx) acc = some ((x2, hx2), acc ++ B1) ∧
        IsBranch env x2 hx2 B2 c hc ∧ contP x2 hx2 = false ∧
        (B1 = [] → x2 = x ∧ hx2 = hx)
  | [], x, hx, c, hc, fuel, acc => by
    intro hbr hstop hfuel
    obtain ⟨hxc, hhc⟩ : x = c ∧ hx = hc := by rw [IsBranch] at hbr; exact hbr
    subst hxc
    subst hhc
    match fuel, hfuel with
    | fuel + 1, _ =>
      refine ⟨[], [], x, hx, by simp, ?_, by rw [IsBranch]; exact ⟨rfl, rfl⟩,
        hstop, fun _ => ⟨rfl, rfl⟩⟩
      rw [popBranch, hstop]
      simp
  | y :: B, x, hx, c, hc, fuel, acc => by
    intro hbr hstop hfuel
    have hy : y = x := hbr.head_eq
    subst hy
    rw [IsBranch] at hbr
    obtain ⟨-, hhdx, hp, hhp, hlt, hbr2⟩ := hbr
    match fuel, hfuel with
    | fuel + 1, hfuel =>
      by_cases hcont : contP y hx = true
      · rw [popBranch, hcont]
        simp only [if_true, hhp]
        have hlen : B.length < fuel := by
          simp only [List.length_cons] at hfuel
          omega
        obtain ⟨B1, B2, x2, hx2, hsplit, hrun, hbr3, hstop2, hemp⟩ :=
          popBranch_correct env contP B hx.prev hp c hc fuel (acc ++ [y])
            hbr2 hstop hlen
        refine ⟨y :: B1, B2, x2, hx2, by rw [hsplit]; simp, ?_, hbr3, hstop2,
          fun hempty => by cases hempty⟩
        rw [hrun]
        simp
      · rw [popBranch, if_neg hcont]
        refine ⟨[], y :: B, y, hx, by simp, by simp, ?_, by simpa using hcont,
          fun _ => ⟨rfl, rfl⟩⟩
        rw [IsBranch]
        exact ⟨rfl, hhdx, hp, hhp, hlt, hbr2⟩

end BlockAccepted

namespace BlockAccepted

/-- Correctness of the reorg walk: started on the heads of two branches that
meet only at their common ancestor `c`, it terminates and collects exactly
the new-chain branch into `to_remove` and the abandoned branch into
`to_reintroduce`. -/
theorem reorgLoop_correct (env : OBAEnv) (c : Nat) (hc : Hdr)
    (hcHdr : env.headers c = some hc) :
    ∀ (fuel : Nat) (A B : List Nat) (rhh : Nat) (rhd : Hdr) (ihh : Nat)
      (ihd : Hdr) (accR accI : List Nat),
      IsBranch env rhh rhd B c hc →
      IsBranch env ihh ihd A c hc →
      (∀ a ∈ A, a ∉ B) →
      A.length + B.length < fuel →
      reorgLoop env fuel (rhh, rhd) (ihh, ihd) accR accI =
        some (accR ++ B, accI ++ A) := by
  intro fuel
  induction fuel with
  | zero =>
    intro A B rhh rhd ihh ihd accR accI _ _ _ hflen
    exact absurd hflen (by omega)
  | succ fuel ihfuel =>
    intro A B rhh rhd ihh ihd accR accI hB hA hdisj hflen
    rw [reorgLoop]
    by_cases heq : rhh = ihh
    · rw [if_pos heq]
      match B, hB with
      | b :: B2, hB =>
        match A, hA with
        | a :: A2, hA =>
          have ha : a = ihh := hA.head_eq
          have hb : b = rhh := hB.head_eq
          have : a ∈ a :: A2 := List.mem_cons_self a A2
          have hnb := hdisj a this
          rw [ha, ← heq, ← hb] at hnb
          exact absurd (List.mem_cons_self b B2) hnb
        | [], hA =>
          obtain ⟨hic, hihc⟩ : ihh = c ∧ ihd = hc := by
            rw [IsBranch] at hA; exact hA
          have hhd := hB.headers_eq
          rw [heq, hic, hcHdr] at hhd
          have hlt := hB.height_lt
          rw [Option.some_inj.mp hhd] at hlt
          omega
      | [], hB =>
        obtain ⟨hrc, hrhc⟩ : rhh = c ∧ rhd = hc := by
          rw [IsBranch] at hB; exact hB
        match A, hA with
        | a :: A2, hA =>
          have hhd := hA.headers_eq
          rw [← heq, hrc, hcHdr] at hhd
          have hlt := hA.height_lt
          rw [Option.some_inj.mp hhd] at hlt
          omega
        | [], hA => simp
    · rw [if_neg heq]
      have hstop1 :
          (fun _ h => decide (ihd.height < h.height)) c hc = false := by
        have := hA.height_le
        simp only [decide_eq_false_iff_not]
        omega
      have hflen1 : B.length < rhd.height + 1 := by
        have := hB.length_le
        omega
      obtain ⟨B1, B2, x2, hx2, hBsplit, hrun1, hbrB2, hstopB, hempB⟩ :=
        popBranch_correct env (fun _ h => decide (ihd.height < h.height)) B
          rhh rhd c hc (rhd.height + 1) accR hB hstop1 hflen1
      rw [hrun1]
      simp only
      have hstop2 :
          (fun x h => decide (hx2.height < h.height) ||
            (decide (h.height = hx2.height) && decide (x ≠ x2))) c hc =
            false := by
        match B2, hbrB2 with
        | [], hbrB2 =>
          obtain ⟨hxc, hxhc⟩ : x2 = c ∧ hx2 = hc := by
            rw [IsBranch] at hbrB2; exact hbrB2
          subst hxc
          subst hxhc
          simp
        | b2 :: B2t, hbrB2 =>
          have := hbrB2.height_lt
          simp only [Bool.or_eq_false_iff, Bool.and_eq_false_iff,
            decide_eq_false_iff_not]
          constructor
          · omega
          · left
            omega
      have hflen2 : A.length < ihd.height + 1 := by
        have := hA.length_le
        omega
      obtain ⟨A1, A2, y2, hy2, hAsplit, hrun2, hbrA2, hstopA, hempA⟩ :=
        popBranch_correct env
          (fun x h => decide (hx2.height < h.height) ||
            (decide (h.height = hx2.height) && decide (x ≠ x2)))
          A ihh ihd c hc (ihd.height + 1) accI hA hstop2 hflen2
      rw [hrun2]
      simp only
      have hprog : ¬(A1 = [] ∧ B1 = []) := by
        rintro ⟨hA1, hB1⟩
        obtain ⟨hx2e, hhx2e⟩ := hempB hB1
        obtain ⟨hy2e, hhy2e⟩ := hempA hA1
        subst hx2e
        subst hhx2e
        rw [hy2e, hhy2e] at hstopA
        simp only [decide_eq_false_iff_not] at hstopB
        simp only [Bool.or_eq_false_iff, Bool.and_eq_false_iff,
          decide_eq_false_iff_not] at hstopA
        obtain ⟨hs1, hs2⟩ := hstopA
        rcases hs2 with hs2 | hs2
        · omega
        · rw [Decidable.not_not] at hs2
          exact heq hs2.symm
      have hdisj2 : ∀ a ∈ A2, a ∉ B2 := by
        intro a haA2 haB2
        have haA : a ∈ A := by rw [hAsplit]; exact List.mem_append_right A1 haA2
        have haB : a ∈ B := by rw [hBsplit]; exact List.mem_append_right B1 haB2
        exact hdisj a haA haB
      have hflen3 : A2.length + B2.length < fuel := by
        have h1 : A.length = A1.length + A2.length := by
          rw [hAsplit, List.length_append]
        have h2 : B.length = B1.length + B2.length := by
          rw [hBsplit, List.length_append]
        have h3 : 1 ≤ A1.length + B1.length := by
          by_contra hcon
          have hA1 : A1 = [] := List.length_eq_zero.mp (by omega)
          have hB1 : B1 = [] := List.length_eq_zero.mp (by omega)
          exact hprog ⟨hA1, hB1⟩
        omega
      have := ihfuel A2 B2 x2 hx2 y2 hy2 (accR ++ B1) (accI ++ A1) hbrB2 hbrA2
        hdisj2 hflen3
      rw [this, hBsplit, hAsplit]
      simp
end BlockAccepted

namespace BlockAccepted

/-- Union of the (tracked-shard) transactions of a list of blocks. -/
def txsUnion (env : OBAEnv) : List Nat → Finset Nat
  | [] => ∅
  | b :: rest => env.blockTxs b ∪ txsUnion env rest

/-- Modelled from the spec: the reintroduction loop over `to_reintroduce`
(client.rs 1178–1187) reinserts each retrievable block's transactions; the
pool itself (`ShardedTxPool`) is external to src/, and the spec's round-trip
property says reinsertion keeps only transactions still valid. -/
def reintroduceList (env : OBAEnv) (pool : Finset Nat) (l : List Nat) :
    Finset Nat :=
  l.foldl
    (fun p b =>
      if env.blockPresent b then p ∪ (env.blockTxs b ∩ env.validTxs) else p)
    pool

/-- Modelled from the spec: the removal loop over `to_remove` (client.rs
1189–1197) drops each retrievable block's transactions from the external
pool. -/
def removeList (env : OBAEnv) (pool : Finset Nat) (l : List Nat) : Finset Nat :=
  l.foldl (fun p b => if env.blockPresent b then p \ env.blockTxs b else p) pool

/-- Whether the chunk-production step runs
(`provenance != SYNC && !syncing && !skip_produce_chunk`). -/
def maybeProduce (env : OBAEnv) (skipPC : Bool) (acts : List Action) :
    List Action :=
  if env.provenance ≠ Prov.sync ∧ env.syncing = false ∧ skipPC = false then
    acts ++ [Action.produceChunks]
  else acts

/-- Embedding of `on_block_accepted_with_optional_chunk_produce` (client.rs
1059–1254) as a fueled work queue: the head of the queue is processed exactly
as the Rust method does — doomslug tip update, pending-approval drain on
`Provenance::NONE`, prune + GC on a new head, then per-status mempool
reconciliation (with the `Fork` arm returning early, before the
incomplete-chunk check), optional chunk production, and finally the
check-and-accept of incomplete chunks whose parent is this block, whose newly
completed blocks are queued next (the recursive `on_block_accepted` calls in
depth-first order). -/
def obaQueue (env : OBAEnv) (skipPC : Bool) :
    Nat → List (Nat × BStatus) → Finset Nat → Option (Finset Nat × List Action)
  | _, [], pool => some (pool, [])
  | 0, _ :: _, _ => none
  | fuel + 1, (blockHash, status) :: rest, pool =>
    match env.headers blockHash with
    | none => obaQueue env skipPC fuel rest pool
    | some hdr =>
      let acts1 :=
        if env.provenance = Prov.received then
          [Action.updateDoomslugTip, Action.drainPendingApprovals]
        else [Action.updateDoomslugTip]
      let acts2 :=
        if status ≠ BStatus.fork then
          acts1 ++ [Action.pruneMissingChunksPool, Action.runGC]
        else acts1
      match env.validatorSigner with
      | none =>
        match obaQueue env skipPC fuel (env.completedBy blockHash ++ rest) pool with
        | none => none
        | some (p2, as2) =>
          some (p2, acts2 ++ [Action.checkIncompleteChunks blockHash] ++ as2)
      | some _ =>
        match status with
        | .fork =>
          match obaQueue env skipPC fuel rest pool with
          | none => none
          | some (p2, as2) => some (p2, acts2 ++ as2)
        | .next =>
          let pool1 := pool \ env.blockTxs blockHash
          let acts3 := maybeProduce env skipPC acts2
          match obaQueue env skipPC fuel (env.completedBy blockHash ++ rest) pool1 with
          | none => none
          | some (p2, as2) =>
            some (p2, acts3 ++ [Action.checkIncompleteChunks blockHash] ++ as2)
        | .reorg prevHead =>
          match env.headers prevHead with
          | none => none
          | some reH =>
            if blockHash = prevHead then none
            else
              match reorgLoop env (hdr.height + reH.height + 2) (blockHash, hdr)
                  (prevHead, reH) [] [] with
              | none => none
              | some walked =>
                let pool1 := reintroduceList env pool walked.2
                let pool2 := removeList env pool1 walked.1
                let acts3 := maybeProduce env skipPC acts2
                match obaQueue env skipPC fuel
                    (env.completedBy blockHash ++ rest) pool2 with
                | none => none
                | some (p2, as2) =>
                  some (p2,
                    acts3 ++ [Action.checkIncompleteChunks blockHash] ++ as2)

/-- Entry point: `on_block_accepted_with_optional_chunk_produce` on a single
accepted block. -/
def onBlockAccepted (env : OBAEnv) (skipPC : Bool) (fuel blockHash : Nat)
    (status : BStatus) (pool : Finset Nat) :
    Option (Finset Nat × List Action) :=
  obaQueue env skipPC fuel [(blockHash, status)] pool

theorem reintroduceList_eq (env : OBAEnv) :
    ∀ (l : List Nat) (pool : Finset Nat),
      (∀ x ∈ l, env.blockPresent x = true) →
      reintroduceList env pool l = pool ∪ (txsUnion env l ∩ env.validTxs)
  | [], pool => by
    intro _
    simp [reintroduceList, txsUnion]
  | b :: rest, pool => by
    intro hpres
    rw [reintroduceList, List.foldl_cons]
    rw [if_pos (hpres b (List.mem_cons_self b rest))]
    have ih := reintroduceList_eq env rest
      (pool ∪ (env.blockTxs b ∩ env.validTxs))
      (fun x hx => hpres x (List.mem_cons_of_mem b hx))
    rw [reintroduceList] at ih
    rw [ih, txsUnion]
    ext x
    simp [Finset.mem_union, Finset.mem_inter]
    tauto
  
theorem removeList_eq (env : OBAEnv) :
    ∀ (l : List Nat) (pool : Finset Nat),
      (∀ x ∈ l, env.blockPresent x = true) →
      removeList env pool l = pool \ txsUnion env l
  | [], pool => by
    intro _
    simp [removeList, txsUnion]
  | b :: rest, pool => by
    intro hpres
    rw [removeList, List.foldl_cons]
    rw [if_pos (hpres b (List.mem_cons_self b rest))]
    have ih := removeList_eq env rest (pool \ env.blockTxs b)
      (fun x hx => hpres x (List.mem_cons_of_mem b hx))
    rw [removeList] at ih
    rw [ih, txsUnion]
    ext x
    simp [Finset.mem_sdiff, Finset.mem_union]
    tauto

end BlockAccepted

namespace BlockAccepted

/-- C7: after `on_block_accepted_with_optional_chunk_produce` processes the new
head block with status `Reorg(prev_head)` on a node holding a validator signer
(client.rs 1145–1197), the mempool for the tracked shard equals
`(pool_before ∪ txs(abandoned branch down to the common ancestor)) \
txs(new branch down to the common ancestor)` restricted to valid transactions. -/
theorem claim_c7 (env : OBAEnv) (skipPC : Bool) (fuel blockHash prevHead c : Nat)
    (hdr reH hc : Hdr) (A B : List Nat) (pool : Finset Nat) (vs : Nat)
    (hsig : env.validatorSigner = some vs)
    (hhdr : env.headers blockHash = some hdr)
    (hpre : env.headers prevHead = some reH)
    (hch : env.headers c = some hc)
    (hB : IsBranch env blockHash hdr B c hc)
    (hA : IsBranch env prevHead reH A c hc)
    (hdisj : ∀ a ∈ A, a ∉ B)
    (hne : blockHash ≠ prevHead)
    (hpresA : ∀ x ∈ A, env.blockPresent x = true)
    (hpresB : ∀ x ∈ B, env.blockPresent x = true)
    (hchild : env.completedBy blockHash = [])
    (hvalid : pool ⊆ env.validTxs)
    (hfuel : 1 ≤ fuel) :
    ∃ acts,
      onBlockAccepted env skipPC fuel blockHash (BStatus.reorg prevHead) pool =
        some (((pool ∪ txsUnion env A) \ txsUnion env B) ∩ env.validTxs, acts) ∧
      Action.checkIncompleteChunks blockHash ∈ acts := by
  obtain ⟨f, rfl⟩ : ∃ f, fuel = f + 1 := ⟨fuel - 1, by omega⟩
  have hlenB := IsBranch.length_le hB
  have hlenA := IsBranch.length_le hA
  have hlen : A.length + B.length < hdr.height + reH.height + 2 := by omega
  have hwalk := reorgLoop_correct env c hc hch (hdr.height + reH.height + 2)
    A B blockHash hdr prevHead reH [] [] hB hA hdisj hlen
  simp only [List.nil_append] at hwalk
  have hpool1 := reintroduceList_eq env A pool hpresA
  have hpool2 := removeList_eq env B (reintroduceList env pool A) hpresB
  have hfinal :
      (pool ∪ (txsUnion env A ∩ env.validTxs)) \ txsUnion env B =
        ((pool ∪ txsUnion env A) \ txsUnion env B) ∩ env.validTxs := by
    ext x
    simp only [Finset.mem_sdiff, Finset.mem_union, Finset.mem_inter]
    have hv : x ∈ pool → x ∈ env.validTxs := fun hx => hvalid hx
    tauto
  refine ⟨maybeProduce env skipPC
      (if BStatus.reorg prevHead ≠ BStatus.fork then
        (if env.provenance = Prov.received then
          [Action.updateDoomslugTip, Action.drainPendingApprovals]
        else [Action.updateDoomslugTip]) ++
          [Action.pruneMissingChunksPool, Action.runGC]
      else
        (if env.provenance = Prov.received then
          [Action.updateDoomslugTip, Action.drainPendingApprovals]
        else [Action.updateDoomslugTip])) ++
      [Action.checkIncompleteChunks blockHash] ++ [], ?_, ?_⟩
  · rw [onBlockAccepted, obaQueue]
    rw [hhdr]
    simp only
    rw [hsig]
    simp only
    rw [hpre]
    simp only
    rw [if_neg hne, hwalk]
    simp only
    rw [hchild]
    simp only [List.nil_append]
    rw [obaQueue]
    simp only
    rw [hpool2, hpool1, hfinal]
  · simp [maybeProduce]

end BlockAccepted

namespace BlockAccepted

/-- Concrete reorg scenario: common ancestor block 1 (height 1); new branch
10 -> 5 -> 1; old head 20 -> 1. -/
def c7Env : OBAEnv where
  validatorSigner := some 1
  headers := fun h =>
    if h = 1 then some ⟨1, 0⟩
    else if h = 5 then some ⟨2, 1⟩
    else if h = 10 then some ⟨3, 5⟩
    else if h = 20 then some ⟨2, 1⟩
    else none
  blockTxs := fun h =>
    if h = 20 then {100} else if h = 10 then {200}
    else if h = 5 then {201} else ∅
  validTxs := {100, 200, 201, 7}
  blockPresent := fun _ => true
  provenance := Prov.produced
  syncing := false
  completedBy := fun _ => []

/-- Witness for C7: a concrete reorg from head 20 to head 10 over common
ancestor 1 turns pool {7} into {7, 100}. -/
theorem claim_c7_witness :
    c7Env.validatorSigner = some 1 ∧
    (10 : Nat) ≠ 20 ∧
    ∃ acts,
      onBlockAccepted c7Env false 1 10 (BStatus.reorg 20) {7} =
        some ((({7} ∪ txsUnion c7Env [20]) \ txsUnion c7Env [10, 5]) ∩
          c7Env.validTxs, acts) ∧
      Action.checkIncompleteChunks 10 ∈ acts := by
  refine ⟨rfl, by decide, ?_⟩
  exact claim_c7 c7Env false 1 10 20 1 ⟨3, 5⟩ ⟨2, 1⟩ ⟨1, 0⟩ [20] [10, 5] {7} 1
    rfl rfl rfl rfl
    ⟨rfl, rfl, ⟨2, 1⟩, rfl, by decide, rfl, rfl, ⟨1, 0⟩, rfl, by decide, rfl, rfl⟩
    ⟨rfl, rfl, ⟨1, 0⟩, rfl, by decide, rfl, rfl⟩
    (by decide) (by decide)
    (by intro x _; rfl) (by intro x _; rfl)
    rfl (by decide) (by decide)

end BlockAccepted

namespace BlockAccepted

/-- C8 counterexample: on a node holding a validator signer, a `Fork` block
makes `on_block_accepted` return early (client.rs 1141–1144): the trace is
just the doomslug-tip update — no incomplete-chunk check for the block and no
chunk production — refuting the claim's "for every block status". -/
theorem claim_c8_counterexample :
    onBlockAccepted c7Env false 5 10 BStatus.fork {7} =
      some ({7}, [Action.updateDoomslugTip]) ∧
    ∀ a ∈ [Action.updateDoomslugTip],
      a ≠ Action.checkIncompleteChunks 10 ∧ a ≠ Action.produceChunks := by
  exact ⟨by decide, by decide⟩

/-- C8 (amended): with a validator signer, a `Fork` block leaves the mempool
untouched, produces no chunks, and — contrary to the claim as stated — also
skips the final check-and-accept of incomplete chunks; in every other case
(no signer, or status `Next`/`Reorg`) every completed run does finish by
check-and-accepting the incomplete chunks whose previous block hash is the
accepted block's hash, with newly completed blocks processed recursively. -/
theorem claim_c8 (env : OBAEnv) (skipPC : Bool) (fuel blockHash : Nat)
    (pool : Finset Nat) :
    ((∃ vs, env.validatorSigner = some vs) →
      ∀ p acts,
        onBlockAccepted env skipPC fuel blockHash BStatus.fork pool =
          some (p, acts) →
        p = pool ∧ Action.checkIncompleteChunks blockHash ∉ acts ∧
          Action.produceChunks ∉ acts) ∧
    (∀ status : BStatus,
      (env.validatorSigner = none ∨ status ≠ BStatus.fork) →
      ∀ hdr, env.headers blockHash = some hdr →
      ∀ p acts,
        onBlockAccepted env skipPC fuel blockHash status pool =
          some (p, acts) →
        Action.checkIncompleteChunks blockHash ∈ acts) := by
  constructor
  · rintro ⟨vs, hsig⟩ p acts h
    match fuel with
    | 0 =>
      rw [onBlockAccepted, obaQueue] at h
      cases h
    | f + 1 =>
      rw [onBlockAccepted, obaQueue] at h
      cases hh : env.headers blockHash with
      | none =>
        rw [hh] at h
        simp only at h
        rw [obaQueue] at h
        injection h with h2
        injection h2 with hp ha
        subst hp
        subst ha
        exact ⟨rfl, by simp, by simp⟩
      | some hdr =>
        rw [hh] at h
        simp only at h
        rw [hsig] at h
        simp only at h
        rw [obaQueue] at h
        simp only at h
        injection h with h2
        injection h2 with hp ha
        subst hp
        subst ha
        refine ⟨rfl, ?_, ?_⟩ <;>
          · simp only [ne_eq, not_true_eq_false, if_false, List.append_nil]
            split <;> simp
  · rintro status hstat hdr hh p acts h
    match fuel with
    | 0 =>
      rw [onBlockAccepted, obaQueue] at h
      cases h
    | f + 1 =>
      rw [onBlockAccepted, obaQueue] at h
      rw [hh] at h
      simp only at h
      cases hs : env.validatorSigner with
      | none =>
        rw [hs] at h
        simp only at h
        split at h
        · cases h
        · rename_i p2as2 heq
          injection h with h2
          injection h2 with hp ha
          subst ha
          simp
      | some vs =>
        rw [hs] at h
        simp only at h
        rcases hstat with hnone | hnf
        · rw [hs] at hnone
          cases hnone
        · cases status with
          | fork => exact absurd rfl hnf
          | next =>
            simp only at h
            split at h
            · cases h
            · rename_i p2as2 heq
              injection h with h2
              injection h2 with hp ha
              subst ha
              simp
          | reorg ph =>
            simp only at h
            cases hph : env.headers ph with
            | none =>
              rw [hph] at h
              cases h
            | some reH =>
              rw [hph] at h
              simp only at h
              split at h
              · cases h
              · split at h
                · cases h
                · rename_i walked hw
                  split at h
                  · cases h
                  · rename_i p2as2 heq
                    injection h with h2
                    injection h2 with hp ha
                    subst ha
                    simp

end BlockAccepted

namespace BlockAccepted

/-- Witness for C8 at a `Next` block on the concrete environment: the trace
ends with the incomplete-chunk check. -/
theorem claim_c8_witness :
    (∃ vs, c7Env.validatorSigner = some vs) ∧
    Action.checkIncompleteChunks 10 ∈
      [Action.updateDoomslugTip, Action.pruneMissingChunksPool, Action.runGC,
        Action.produceChunks, Action.checkIncompleteChunks 10] := by
  refine ⟨⟨1, rfl⟩, ?_⟩
  exact (claim_c8 c7Env false 1 10 {7}).2 BStatus.next (Or.inr (by decide)) ⟨3, 5⟩ rfl
    {7} _ (by decide)

end BlockAccepted

namespace Migrations

/-- Outcome of `apply_store_migrations`: either the process exited (via
`std::process::exit`) or the function returned normally. -/
inductive MigOutcome
  | exited (code : Nat)
  | ok
deriving DecidableEq

/-- Observable result: the outcome, the database contents after the call, the
list of executed migration blocks (the `if db_version <= k` bodies, by their
`k`), and whether a migration snapshot was created. -/
structure MigResult where
  outcome : MigOutcome
  db : Nat
  applied : List Nat
  checkpointed : Bool
deriving DecidableEq

/-- Collaborators of `apply_store_migrations` that live outside src/:
`near_primitives::version::DB_VERSION` (the binary's current version) and the
effect of each `migrate_k_to_{k+1}` body on the abstract database contents. -/
structure MigEnv where
  dbCurrent : Nat
  migrate : Nat → Nat → Nat

/-- Embedding of `apply_store_migrations` (nearcore/src/lib.rs 118–363):
`db_version > DB_VERSION` logs an error and exits with code 1 before touching
the database; `db_version == DB_VERSION` returns at once; otherwise a
snapshot is created when configured and every block `if db_version <= k`
(k = 1..30) runs its migration in order. -/
def apply_store_migrations (env : MigEnv) (useSnapshot : Bool)
    (stored db : Nat) : MigResult :=
  if env.dbCurrent < stored then
    { outcome := MigOutcome.exited 1, db := db, applied := [],
      checkpointed := false }
  else if stored = env.dbCurrent then
    { outcome := MigOutcome.ok, db := db, applied := [],
      checkpointed := false }
  else
    let steps := (List.range' 1 30).filter (fun k => stored ≤ k)
    { outcome := MigOutcome.ok
      db := steps.foldl (fun d k => env.migrate k d) db
      applied := steps
      checkpointed := useSnapshot }

/-- C9: a stored database version strictly greater than the binary's
`DB_VERSION` makes `apply_store_migrations` exit the process with code 1
without running any migration, creating any snapshot, or modifying the
database; equal versions return immediately, likewise changing nothing. -/
theorem claim_c9 (env : MigEnv) (useSnapshot : Bool) (stored db : Nat) :
    (env.dbCurrent < stored →
      (apply_store_migrations env useSnapshot stored db).outcome =
          MigOutcome.exited 1 ∧
      (apply_store_migrations env useSnapshot stored db).db = db ∧
      (apply_store_migrations env useSnapshot stored db).applied = [] ∧
      (apply_store_migrations env useSnapshot stored db).checkpointed =
        false) ∧
    (stored = env.dbCurrent →
      (apply_store_migrations env useSnapshot stored db).outcome =
          MigOutcome.ok ∧
      (apply_store_migrations env useSnapshot stored db).db = db ∧
      (apply_store_migrations env useSnapshot stored db).applied = [] ∧
      (apply_store_migrations env useSnapshot stored db).checkpointed =
        false) := by
  constructor
  · intro hgt
    rw [apply_store_migrations, if_pos hgt]
    exact ⟨rfl, rfl, rfl, rfl⟩
  · intro heq
    rw [apply_store_migrations, if_neg (by omega), if_pos heq]
    exact ⟨rfl, rfl, rfl, rfl⟩

/-- Witness for C9: the binary at version 31 with a database stored at
version 32 exits; at version 31 it is a no-op. -/
theorem claim_c9_witness :
    ((⟨31, fun _ d => d + 1⟩ : MigEnv).dbCurrent < 32 ∧
      (apply_store_migrations ⟨31, fun _ d => d + 1⟩ true 32 7).outcome =
          MigOutcome.exited 1 ∧
      (apply_store_migrations ⟨31, fun _ d => d + 1⟩ true 32 7).db = 7) ∧
    ((31 : Nat) = (⟨31, fun _ d => d + 1⟩ : MigEnv).dbCurrent ∧
      (apply_store_migrations ⟨31, fun _ d => d + 1⟩ true 31 7).applied =
        []) := by
  refine ⟨⟨by decide, ?_, ?_⟩, ⟨rfl, ?_⟩⟩
  · exact ((claim_c9 ⟨31, fun _ d => d + 1⟩ true 32 7).1 (by decide)).1
  · exact ((claim_c9 ⟨31, fun _ d => d + 1⟩ true 32 7).1 (by decide)).2.1
  · exact ((claim_c9 ⟨31, fun _ d => d + 1⟩ true 31 7).2 rfl).2.2.1

end Migrations

namespace ChunkProd

/-- Modelled from the spec: the outcome of draining the shard's pool iterator
through `RuntimeAdapter::prepare_transactions` (both external to src/) — the
ordered list of transactions selected for the chunk and the set of drained
transactions rejected by the validity filter. -/
structure PoolDraw where
  selected : List Nat
  rejected : Finset Nat
deriving DecidableEq

/-- The fields of the produced `EncodedShardChunk` the claim observes. -/
structure EncChunk where
  height : Nat
  shardId : Nat
  txs : List Nat
deriving DecidableEq

/-- Errors `produce_chunk` can surface. -/
inductive CPErr
  | chunkProducer
  | chainErr
  | panicked
deriving DecidableEq

/-- Collaborators of `produce_chunk`/`prepare_transactions`: the validator
signer, the chunk-producer assignment, epoch-start and catch-up queries, the
`ChunkExtra` lookup, the pool-iterator outcome (`none` models
`get_pool_iterator` returning `None`, an error models one of the fallible
lookups inside `prepare_transactions` failing), the shard's mempool, and
whether erasure-coding the chunk succeeds. -/
structure CPEnv where
  validatorSigner : Option Nat
  chunkProposer : Nat → Nat → Option Nat
  isEpochStart : Except Unit Bool
  caughtUp : Except Unit Bool
  chunkExtraOk : Bool
  drawRes : Option (Except Unit PoolDraw)
  pool : Finset Nat
  encodeOk : Bool

/-- Embedding of `Client::prepare_transactions` (client.rs 681–726): with no
pool iterator the transaction list is empty and the pool is untouched;
otherwise the iterator drains the pulled transactions from the pool,
`runtime_adapter.prepare_transactions` keeps the valid ones up to the gas
limit, and `shards_mgr.reintroduce_transactions` puts every selected
transaction back into the pool before returning. -/
def prepare_transactions (env : CPEnv) :
    Except CPErr (List Nat × Finset Nat) :=
  match env.drawRes with
  | none => Except.ok ([], env.pool)
  | some (Except.error _) => Except.error CPErr.chainErr
  | some (Except.ok d) =>
    Except.ok (d.selected,
      (env.pool \ (d.selected.toFinset ∪ d.rejected)) ∪ d.selected.toFinset)

/-- Embedding of `Client::produce_chunk` (client.rs 571–679): signer check,
chunk-proposer eligibility (`Ok(None)` when we are not the proposer),
epoch-start catch-up check, `ChunkExtra` lookup, `prepare_transactions`, then
erasure-coding the chunk from the selected transactions. The second component
is the shard pool after the call. -/
def produce_chunk (env : CPEnv) (nextHeight shardId : Nat) :
    Except CPErr (Option EncChunk × Finset Nat) :=
  match env.validatorSigner with
  | none => Except.error CPErr.chunkProducer
  | some signer =>
    match env.chunkProposer nextHeight shardId with
    | none => Except.error CPErr.panicked
    | some proposer =>
      if signer ≠ proposer then Except.ok (none, env.pool)
      else
        match env.isEpochStart with
        | Except.error _ => Except.error CPErr.chainErr
        | Except.ok epochStart =>
          match (if epochStart then env.caughtUp else Except.ok true) with
          | Except.error _ => Except.error CPErr.chainErr
          | Except.ok caught =>
            if ¬ caught then Except.error CPErr.chunkProducer
            else if ¬ env.chunkExtraOk then Except.error CPErr.chunkProducer
            else
              match prepare_transactions env with
              | Except.error e => Except.error e
              | Except.ok (txs, pool2) =>
                if ¬ env.encodeOk then Except.error CPErr.chainErr
                else
                  Except.ok (some ⟨nextHeight, shardId, txs⟩, pool2)

/-- C10: producing a chunk does not consume its transactions — whenever
`produce_chunk` succeeds with a chunk, the chunk's transactions are exactly
the selected list, every one of them is still in the shard's mempool
(`prepare_transactions` reinserted them before returning), and the pool lost
exactly the transactions the validity filter rejected. -/
theorem claim_c10 (env : CPEnv) (nextHeight shardId : Nat) (d : PoolDraw)
    (hdraw : env.drawRes = some (Except.ok d))
    (hsel : ∀ t ∈ d.selected, t ∈ env.pool)
    (hdisj : ∀ t ∈ d.selected, t ∉ d.rejected) :
    ∀ ck pool2,
      produce_chunk env nextHeight shardId = Except.ok (some ck, pool2) →
      ck.txs = d.selected ∧ pool2 = env.pool \ d.rejected ∧
        ∀ t ∈ ck.txs, t ∈ pool2 := by
  intro ck pool2 h
  rw [produce_chunk] at h
  split at h
  · cases h
  · split at h
    · cases h
    · split at h
      · injection h with h2
        injection h2 with hc
        cases hc
      · split at h
        · cases h
        · split at h
          · cases h
          · split at h
            · cases h
            · split at h
              · cases h
              · rw [prepare_transactions, hdraw] at h
                simp only at h
                split at h
                · cases h
                · injection h with h2
                  injection h2 with hck hpool
                  have hck2 := Option.some.inj hck
                  have hcktxs : ck.txs = d.selected := by
                    rw [← hck2]
                  have hpool2 : pool2 = env.pool \ d.rejected := by
                    rw [← hpool]
                    ext x
                    simp only [Finset.mem_union, Finset.mem_sdiff,
                      List.mem_toFinset]
                    constructor
                    · rintro (⟨hx, hnx⟩ | hx)
                      · exact ⟨hx, fun hr => hnx (Or.inr hr)⟩
                      · exact ⟨hsel x hx, hdisj x hx⟩
                    · rintro ⟨hx, hnr⟩
                      by_cases hxs : x ∈ d.selected
                      · exact Or.inr hxs
                      · exact Or.inl ⟨hx, fun hor => by
                          rcases hor with hs | hr
                          · exact hxs hs
                          · exact hnr hr⟩
                  refine ⟨hcktxs, hpool2, ?_⟩
                  intro t ht
                  rw [hcktxs] at ht
                  rw [hpool2]
                  exact Finset.mem_sdiff.mpr ⟨hsel t ht, hdisj t ht⟩

/-- Concrete C10 scenario: pool \x7b4, 5, 6, 7\x7d, iterator selects [4, 5] and
rejects \x7b6\x7d. -/
def c10Env : CPEnv where
  validatorSigner := some 1
  chunkProposer := fun _ _ => some 1
  isEpochStart := Except.ok false
  caughtUp := Except.ok true
  chunkExtraOk := true
  drawRes := some (Except.ok ⟨[4, 5], {6}⟩)
  pool := {4, 5, 6, 7}
  encodeOk := true

/-- Witness for C10: the produced chunk holds [4, 5], both still in the pool,
and only the rejected transaction 6 left the pool. -/
theorem claim_c10_witness :
    (c10Env.drawRes = some (Except.ok ⟨[4, 5], {6}⟩) ∧
      ∀ t ∈ [4, 5], t ∈ c10Env.pool) ∧
    ((⟨9, 0, [4, 5]⟩ : EncChunk).txs = [4, 5] ∧
      (c10Env.pool \ (([4, 5] : List Nat).toFinset ∪ {6})) ∪
          ([4, 5] : List Nat).toFinset =
        c10Env.pool \ {6} ∧
      ∀ t ∈ (⟨9, 0, [4, 5]⟩ : EncChunk).txs,
        t ∈ (c10Env.pool \ (([4, 5] : List Nat).toFinset ∪ {6})) ∪
          ([4, 5] : List Nat).toFinset) := by
  refine ⟨⟨rfl, by decide⟩, ?_⟩
  exact claim_c10 c10Env 9 0 ⟨[4, 5], {6}⟩ rfl (by decide) (by decide)
    ⟨9, 0, [4, 5]⟩
    ((c10Env.pool \ (([4, 5] : List Nat).toFinset ∪ {6})) ∪
      ([4, 5] : List Nat).toFinset)
    rfl

end ChunkProd
